import Mathlib

/-!
Verification development for the `rarc-tool` repository (`src/rarc.rs`).

The source is a single Rust file implementing a RARC archive container:
a binary decoder (`RARC::read`), a tree linker (`RARC::sortparents`),
a path resolver (`RARC::getroot` / `RARC::getchildren` / `RARC::findfolder`),
and a filesystem importer (`RARC::importfromfolder` / `RARC::importnote` /
`RARC::createdir` / `RARC::createfile` / `RARC::createfolder`).

Modelling conventions:
* Byte buffers are `List Nat` (each element a byte value; reads reduce mod 256).
* Strings (names) are modelled as their UTF-8 byte lists (`List Nat`); the
  names occurring in the claims are ASCII.
* Machine integers are `Nat` with explicit reduction `% 2^32` (resp. `% 2^16`,
  `% 2^8`) at every point where the Rust code performs `u32`/`u16`/`u8`
  arithmetic or an `as` cast.  Integer overflow follows release-mode Rust
  semantics (two's-complement wrapping, `overflow-checks = false`).
* Raw pointers (`*const FileNode`, `*const DirNode`) are modelled as indices
  into the owning `RARC` tables (`folders` / `dirs`), which is the referent of
  the pointer at capture time; `std::ptr::eq`-based position lookups become
  index comparisons.
* Fallible operations that the Rust code `unwrap`s (payload `read_exact`,
  out-of-bounds `Vec` indexing, `read_dir` on a non-directory) are modelled as
  `Option`-valued, `none` meaning a panic/abort.
* The helper module `seektask` is not part of the analyzed sources; following
  the specification it is a primitive `readCString(buffer, offset)` that reads
  bytes until a zero byte using a scoped, position-restoring seek (it does not
  move the main cursor), and `seektask` itself is a scoped position-restoring
  seek.
-/

namespace Rarc

/-- Byte order, `binrw::Endian`.  `Endian::NATIVE` is a platform constant; the
decoder below takes it as an explicit parameter `native`. -/
inductive Endian where
  | big
  | little
deriving DecidableEq, Repr

/-- `FileAttr::FILE` (0x1). -/
def FILE : Nat := 1

/-- `FileAttr::FOLDER` (0x2). -/
def FOLDER : Nat := 2

/-- `u32::MAX`, the "no parent" sentinel. -/
def UMAX : Nat := 4294967295

/-- `bitflags` `contains`: `(bits & flag) == flag`. -/
def attrContains (bits flag : Nat) : Bool := bits &&& flag == flag

/-- `folder::Node` — the on-disk folder record. -/
structure FolderNode where
  shortname : List Nat := [0, 0, 0, 0]
  nameoff : Nat := 0
  hash : Nat := 0
  filecount : Nat := 0
  firstfileoff : Nat := 0
deriving DecidableEq, Repr

/-- `dir::Node` — the on-disk entry record. -/
structure DirNodeRec where
  nodeidx : Nat := 0
  hash : Nat := 0
  attrandnameoff : Nat := 0
  data : Nat := 0
  datasize : Nat := 0
deriving DecidableEq, Repr

/-- `FileNode` — in-memory folder record.  `dir` models the raw pointer
`Option<*const DirNode>` as an index into `RARC.dirs`. -/
structure FileNode where
  node : FolderNode := {}
  isroot : Bool := false
  name : List Nat := []
  dir : Option Nat := none
deriving DecidableEq, Repr

/-- `DirNode` — in-memory entry record.  `folder` and `parent` model the raw
pointers `Option<*const FileNode>` as indices into `RARC.folders`. -/
structure DirNode where
  node : DirNodeRec := {}
  attr : Nat := 0
  name : List Nat := []
  nameoff : Nat := 0
  data : List Nat := []
  folder : Option Nat := none
  parent : Option Nat := none
deriving DecidableEq, Repr

/-- `Header`. -/
structure Header where
  filesize : Nat := 0
  headersize : Nat := 0
  filedataoff : Nat := 0
  filedatasize : Nat := 0
  mramsize : Nat := 0
  aramsize : Nat := 0
  dvdsize : Nat := 0
deriving DecidableEq, Repr

/-- `DataHeader`. -/
structure DataHeader where
  dirnodecount : Nat := 0
  dirnodeoff : Nat := 0
  filenodecount : Nat := 0
  filenodeoff : Nat := 0
  stringtablesize : Nat := 0
  stringtableoff : Nat := 0
deriving DecidableEq, Repr

/-- `RARC` — the archive.  The borrowed `data : Cow<[u8]>` buffer is not kept
in the model (no modelled operation reads it back after decoding). -/
structure RARC where
  folders : List FileNode := []
  dirs : List DirNode := []
  header : Header := {}
  dataheader : DataHeader := {}
  nextidx : Nat := 0
  sync : Bool := false
  endian : Endian := .little
deriving DecidableEq, Repr

/-- The guard of `sortparents`' first loop:
`dir.attr.contains(FileAttr::FOLDER) && dir.node.data != u32::MAX`. -/
def dircond (d : DirNode) : Bool := attrContains d.attr FOLDER && d.node.data != UMAX

/-- First loop of `RARC::sortparents` (lines 193-200), processing entries
`i, i+1, ...` with `k` entries remaining.  For each entry with the FOLDER
attribute and non-sentinel `data`: set the entry's `folder` link to table index
`data` (panic — `none` — if `data` is out of folder-table bounds), and when the
hashes agree set the folder's `dir` back-link to this entry's index. -/
def phase1Go : List FileNode → List DirNode → Nat → Nat → Option (List FileNode × List DirNode)
  | fs, ds, _, 0 => some (fs, ds)
  | fs, ds, i, k + 1 =>
    let d := ds.getD i {}
    if dircond d then
      if d.node.data < fs.length then
        let f := fs.getD d.node.data {}
        let ds1 := ds.set i { d with folder := some d.node.data }
        let fs1 := if d.node.hash = f.node.hash then fs.set d.node.data { f with dir := some i } else fs
        phase1Go fs1 ds1 (i + 1) k
      else none
    else phase1Go fs ds (i + 1) k

/-- Inner loop of `sortparents`' second phase (lines 202-206): set
`dirs[y].parent := j` for `k` successive indices starting at `y`; panic
(`none`) on an out-of-bounds index. -/
def phase2Inner : List DirNode → Nat → Nat → Nat → Option (List DirNode)
  | ds, _, _, 0 => some ds
  | ds, j, y, k + 1 =>
    if y < ds.length then
      phase2Inner (ds.set y { ds.getD y {} with parent := some j }) j (y + 1) k
    else none

/-- Second loop of `RARC::sortparents` (lines 201-207), processing folders
`j, j+1, ...` with `k` folders remaining.  The loop bound
`firstfileoff .. firstfileoff + filecount` is `u32` arithmetic, so the upper
bound wraps mod `2^32`. -/
def phase2Go : List FileNode → List DirNode → Nat → Nat → Option (List DirNode)
  | _, ds, _, 0 => some ds
  | fs, ds, j, k + 1 =>
    match phase2Inner ds j (fs.getD j {}).node.firstfileoff
        (((fs.getD j {}).node.firstfileoff + (fs.getD j {}).node.filecount) % 2 ^ 32
          - (fs.getD j {}).node.firstfileoff) with
    | none => none
    | some ds1 => phase2Go fs ds1 (j + 1) k

/-- `RARC::sortparents` — the Tree Linker.  `none` models a panic from an
out-of-bounds table index. -/
def sortparents (s : RARC) : Option RARC :=
  match phase1Go s.folders s.dirs 0 s.dirs.length with
  | none => none
  | some (fs, ds) =>
    match phase2Go fs ds 0 fs.length with
    | none => none
    | some ds1 => some { s with folders := fs, dirs := ds1 }

/-- Byte at position `p` of the buffer (a `u8`; out-of-range reads are only
performed by the name/magic primitive, which stops at the buffer end). -/
def byteAt (buf : List Nat) (p : Nat) : Nat := buf.getD p 0 % 256

/-- Assemble a `u32` from 4 bytes at `p` in the given byte order
(`reader.read_be()` / `reader.read_le()`). -/
def w32 (e : Endian) (buf : List Nat) (p : Nat) : Nat :=
  match e with
  | .big =>
    byteAt buf p * 16777216 + byteAt buf (p + 1) * 65536 + byteAt buf (p + 2) * 256 + byteAt buf (p + 3)
  | .little =>
    byteAt buf (p + 3) * 16777216 + byteAt buf (p + 2) * 65536 + byteAt buf (p + 1) * 256 + byteAt buf p

/-- Assemble a `u16` from 2 bytes at `p` in the given byte order. -/
def w16 (e : Endian) (buf : List Nat) (p : Nat) : Nat :=
  match e with
  | .big => byteAt buf p * 256 + byteAt buf (p + 1)
  | .little => byteAt buf (p + 1) * 256 + byteAt buf p

/-- Cursor position after a failed `read_exact` starting at `p`: the available
bytes were consumed (`std::io::Cursor`), so the position is `max p len`. -/
def failPos (buf : List Nat) (p : Nat) : Nat := max p buf.length

/-- `seektask::readntstringat` — modelled from the spec: the primitive
`readCString(buffer, byteOffset)` reads bytes until a zero byte (or the end of
the buffer) with a scoped, position-restoring seek; it does not move the main
cursor.  (The `seektask` module is not among the analyzed sources.) -/
def readnt (buf : List Nat) (off : Nat) : List Nat :=
  (buf.drop off).takeWhile (fun b => b % 256 != 0) |>.map (· % 256)

/-- `read_exact` of `n` bytes at position `p` inside a `seektask` scoped seek:
`none` models the `unwrap` panic on a truncated stream. -/
def readBytes (buf : List Nat) (p n : Nat) : Option (List Nat) :=
  if p + n ≤ buf.length then some (((buf.drop p).take n).map (· % 256)) else none

/-- `read::<Header>(endian, reader).unwrap_or_default()` at position `p`:
seven sequential `u32` fields (28 bytes); on a truncated stream the default
record is substituted and the cursor rests at `failPos`. -/
def readHeaderD (e : Endian) (buf : List Nat) (p : Nat) : Header × Nat :=
  if p + 28 ≤ buf.length then
    ({ filesize := w32 e buf p, headersize := w32 e buf (p + 4), filedataoff := w32 e buf (p + 8),
       filedatasize := w32 e buf (p + 12), mramsize := w32 e buf (p + 16),
       aramsize := w32 e buf (p + 20), dvdsize := w32 e buf (p + 24) }, p + 28)
  else ({}, failPos buf p)

/-- `read::<DataHeader>(endian, reader).unwrap_or_default()` (24 bytes). -/
def readDataHeaderD (e : Endian) (buf : List Nat) (p : Nat) : DataHeader × Nat :=
  if p + 24 ≤ buf.length then
    ({ dirnodecount := w32 e buf p, dirnodeoff := w32 e buf (p + 4),
       filenodecount := w32 e buf (p + 8), filenodeoff := w32 e buf (p + 12),
       stringtablesize := w32 e buf (p + 16), stringtableoff := w32 e buf (p + 20) }, p + 24)
  else ({}, failPos buf p)

/-- `read::<u16>(endian, reader).unwrap_or_default()`. -/
def readU16D (e : Endian) (buf : List Nat) (p : Nat) : Nat × Nat :=
  if p + 2 ≤ buf.length then (w16 e buf p, p + 2) else (0, failPos buf p)

/-- `u8::read(reader).unwrap_or_default() != 0` — the `sync` flag. -/
def readU8D (buf : List Nat) (p : Nat) : Bool × Nat :=
  if p + 1 ≤ buf.length then (byteAt buf p != 0, p + 1) else (false, failPos buf p)

/-- `read::<folder::Node>(endian, reader).unwrap_or_default()` (16 bytes:
4 raw shortname bytes, `u32`, `u16`, `u16`, `u32`). -/
def readFolderD (e : Endian) (buf : List Nat) (p : Nat) : FolderNode × Nat :=
  if p + 16 ≤ buf.length then
    ({ shortname := [byteAt buf p, byteAt buf (p + 1), byteAt buf (p + 2), byteAt buf (p + 3)],
       nameoff := w32 e buf (p + 4), hash := w16 e buf (p + 8), filecount := w16 e buf (p + 10),
       firstfileoff := w32 e buf (p + 12) }, p + 16)
  else ({}, failPos buf p)

/-- `read::<dir::Node>(endian, reader).unwrap_or_default()` (16 bytes:
`u16`, `u16`, `u32`, `u32`, `u32`). -/
def readDirD (e : Endian) (buf : List Nat) (p : Nat) : DirNodeRec × Nat :=
  if p + 16 ≤ buf.length then
    ({ nodeidx := w16 e buf p, hash := w16 e buf (p + 2), attrandnameoff := w32 e buf (p + 4),
       data := w32 e buf (p + 8), datasize := w32 e buf (p + 12) }, p + 16)
  else ({}, failPos buf p)

/-- The bytes of the magic string `"RARC"`. -/
def rarcMagic : List Nat := [82, 65, 82, 67]

/-- The bytes of the magic string `"CRAR"`. -/
def crarMagic : List Nat := [67, 82, 65, 82]

/-- Byte-order detection of `RARC::read` (lines 138-143): the null-terminated
string read at offset 0 selects big endian when it equals `"RARC"`, little
endian when it equals `"CRAR"`, and the platform-default (`Endian::NATIVE`,
here the parameter `native`) otherwise. -/
def detectEndian (native : Endian) (buf : List Nat) : Endian :=
  let magic := readnt buf 0
  if magic = rarcMagic then .big
  else if magic = crarMagic then .little
  else native

/-- The straight-line prefix of `RARC::read` (lines 134-147): byte-order
detection, then `Header`, `DataHeader`, `nextidx` and `sync` read sequentially
from position 4, each substituted by its default on failure. -/
def decodeEnv (native : Endian) (buf : List Nat) : Endian × Header × DataHeader × Nat × Bool :=
  let endian := detectEndian native buf
  let (header, p1) := readHeaderD endian buf 4
  let (dataheader, p2) := readDataHeaderD endian buf p1
  let (nextidx, p3) := readU16D endian buf p2
  let (sync, _) := readU8D buf p3
  (endian, header, dataheader, nextidx, sync)

/-- Folder-table loop of `RARC::read` (lines 151-160): read `k` folder records
starting at position `p` (record index `i`); each name is resolved from the
string table by a position-restoring seek; the record at index 0 is marked as
the root. -/
def parseFoldersGo (e : Endian) (buf : List Nat) (hdr : Header) (dh : DataHeader) :
    Nat → Nat → Nat → List FileNode
  | _, _, 0 => []
  | p, i, k + 1 =>
    let (node, p1) := readFolderD e buf p
    let name := readnt buf ((dh.stringtableoff + hdr.headersize + node.nameoff) % 2 ^ 32)
    { node := node, name := name, isroot := i == 0, dir := none } ::
      parseFoldersGo e buf hdr dh p1 (i + 1) k

/-- The packed-field unpacking of the entry loop (line 166):
`(attrandnameoff & 0x00FFFFFF) as u16`. -/
def deriveNameoff (x : Nat) : Nat := (x &&& 16777215) % 65536

/-- The packed-field unpacking of the entry loop (line 167):
`(attrandnameoff >> 24) as u8`. -/
def deriveAttr (x : Nat) : Nat := (x >>> 24) % 256

/-- Entry-table loop of `RARC::read` (lines 162-178): read `k` entry records
starting at position `p`, each followed by a 4-byte padding skip; unpack
`attrandnameoff`; resolve the name; for a FILE-attributed entry read exactly
`datasize` payload bytes under a scoped seek, `none` modelling the `unwrap`
panic when that region is truncated. -/
def parseDirsGo (e : Endian) (buf : List Nat) (hdr : Header) (dh : DataHeader) :
    Nat → Nat → Option (List DirNode)
  | _, 0 => some []
  | p, k + 1 =>
    let (node, p1) := readDirD e buf p
    let nameoff := deriveNameoff node.attrandnameoff
    let attr := deriveAttr node.attrandnameoff
    let name := readnt buf ((dh.stringtableoff + hdr.headersize + nameoff) % 2 ^ 32)
    let base : DirNode := { node := node, attr := attr, nameoff := nameoff, name := name }
    if attrContains attr FILE then
      match readBytes buf ((hdr.filedataoff + hdr.headersize + node.data) % 2 ^ 32) node.datasize with
      | none => none
      | some payload =>
        match parseDirsGo e buf hdr dh (p1 + 4) k with
        | none => none
        | some rest => some ({ base with data := payload } :: rest)
    else
      match parseDirsGo e buf hdr dh (p1 + 4) k with
      | none => none
      | some rest => some (base :: rest)

/-- The raw entry records the entry loop decodes (payload reads do not move the
cursor, so the record sequence is independent of them). -/
def dirNodesGo (e : Endian) (buf : List Nat) : Nat → Nat → List DirNodeRec
  | _, 0 => []
  | p, k + 1 =>
    let (node, p1) := readDirD e buf p
    node :: dirNodesGo e buf (p1 + 4) k

/-- The raw entry records decoded by `RARC::read` on `buf`. -/
def dirNodesOf (native : Endian) (buf : List Nat) : List DirNodeRec :=
  let env := decodeEnv native buf
  dirNodesGo env.1 buf ((env.2.2.1.filenodeoff + env.2.1.headersize) % 2 ^ 32) env.2.2.1.filenodecount

/-- `RARC::read` up to (but excluding) the final `sortparents` call
(lines 134-188). -/
def parsePre (native : Endian) (buf : List Nat) : Option RARC :=
  let env := decodeEnv native buf
  let endian := env.1
  let header := env.2.1
  let dataheader := env.2.2.1
  let folders := parseFoldersGo endian buf header dataheader
    ((dataheader.dirnodeoff + header.headersize) % 2 ^ 32) 0 dataheader.dirnodecount
  match parseDirsGo endian buf header dataheader
      ((dataheader.filenodeoff + header.headersize) % 2 ^ 32) dataheader.filenodecount with
  | none => none
  | some dirs =>
    some { folders := folders, dirs := dirs, header := header, dataheader := dataheader,
           nextidx := env.2.2.2.1, sync := env.2.2.2.2, endian := endian }

/-- `RARC::read` — decode, then link (`res.sortparents()`), `none` modelling a
panic. -/
def RARC.read (native : Endian) (buf : List Nat) : Option RARC :=
  match parsePre native buf with
  | none => none
  | some pre => sortparents pre

/-- A model filesystem tree: what `std::fs::read_dir` / `read` observe.
`read_dir` lists a directory's children in list order. -/
inductive FSEntry where
  | file (name : List Nat) (contents : List Nat)
  | dir (name : List Nat) (children : List FSEntry)

/-- `path.file_name()` of a listed child. -/
def FSEntry.name : FSEntry → List Nat
  | .file n _ => n
  | .dir n _ => n

/-- The bytes of `"."`. -/
def dotName : List Nat := [46]

/-- The bytes of `".."`. -/
def dotdotName : List Nat := [46, 46]

/-- The fixed root tag `*b"ROOT"`. -/
def rootTag : List Nat := [82, 79, 79, 84]

/-- `s.to_ascii_uppercase()` at the byte level (ASCII lowercase letters map to
uppercase; all other bytes, including UTF-8 continuation/lead bytes, are
unchanged — exactly the byte effect of the Rust call). -/
def upperByte (b : Nat) : Nat := if 97 ≤ b ∧ b ≤ 122 then b - 32 else b

/-- Replace the folder record at index `i`. -/
def setFolder (s : RARC) (i : Nat) (f : FileNode) : RARC := { s with folders := s.folders.set i f }

/-- Replace the entry record at index `i`. -/
def setDir (s : RARC) (i : Nat) (d : DirNode) : RARC := { s with dirs := s.dirs.set i d }

/-- `self.folders.iter().position(|x| std::ptr::eq(x, parent)).unwrap_or_default()`:
with pointers modelled as indices, the position of `parent` is `parent` itself
when it is in the table, and the lookup falls back to 0 otherwise. -/
def parposOf (s : RARC) (parent : Nat) : Nat := if parent < s.folders.length then parent else 0

/-- `RARC::createdir` (lines 256-260): push a fresh entry record carrying only
a name and attributes. -/
def createdir (name : List Nat) (attr : Nat) (s : RARC) : RARC :=
  { s with dirs := s.dirs ++ [{ name := name, attr := attr }] }

/-- `RARC::createfile` (lines 261-270): `createdir`, then in sync mode assign
the sequential node index (`u16`, wrapping increment); returns the new entry's
index. -/
def createfile (name : List Nat) (attr : Nat) (s : RARC) : RARC × Nat :=
  let s1 := createdir name attr s
  let len := s1.dirs.length
  if s1.sync then
    let d := s1.dirs.getD (len - 1) {}
    let s2 := setDir s1 (len - 1) { d with node := { d.node with nodeidx := s1.nextidx } }
    ({ s2 with nextidx := (s2.nextidx + 1) % 65536 }, len - 1)
  else (s1, len - 1)

/-- `RARC::createfolder` (lines 271-291): build the 4-byte short name (pad with
spaces below 4 bytes, else truncate to 4 bytes; uppercase), push the folder
record, `createdir` a FOLDER entry, and cross-link folder and entry; the
entry's `parent` is the given parent pointer.  Returns the new folder's
index. -/
def createfolder (name : List Nat) (parent : Nat) (s : RARC) : RARC × Nat :=
  let n : List Nat := if name.length < 4 then name ++ List.replicate (4 - name.length) 32 else name.take 4
  let node : FileNode := { name := name, node := { shortname := n.map upperByte } }
  let len := s.folders.length + 1
  let dlen := s.dirs.length + 1
  let s1 := { s with folders := s.folders ++ [node] }
  let s2 := createdir name FOLDER s1
  let s3 := setFolder s2 (len - 1) { s2.folders.getD (len - 1) {} with dir := some (dlen - 1) }
  let s4 := setDir s3 (dlen - 1) { s3.dirs.getD (dlen - 1) {} with folder := some (len - 1), parent := some parent }
  (s4, len - 1)

/-- First loop of `RARC::importnote` (lines 300-316): for each listed child
(skipping `"."` / `".."` names), create a sub-folder or a FILE entry whose
payload is the file's contents; count processed children (`u16`) and record
sub-folder positions. -/
def importPass1 (parent attr : Nat) : List FSEntry → RARC → Nat → List Nat → RARC × Nat × List Nat
  | [], s, nodelen, dirpos => (s, nodelen, dirpos)
  | item :: rest, s, nodelen, dirpos =>
    if item.name = dotName ∨ item.name = dotdotName then
      importPass1 parent attr rest s nodelen dirpos
    else
      match item with
      | .dir n _ =>
        let (s1, p) := createfolder n parent s
        importPass1 parent attr rest s1 ((nodelen + 1) % 65536) (dirpos ++ [p])
      | .file n contents =>
        let (s1, pos) := createfile n attr s
        let d := s1.dirs.getD pos {}
        let s2 := setDir s1 pos
          { d with data := contents, node := { d.node with datasize := contents.length % 2 ^ 32 } }
        importPass1 parent attr rest s2 ((nodelen + 1) % 65536) dirpos

/-- Second loop of `RARC::importnote` (lines 318-347), parameterized by the
recursive import call `rec` (which receives the child listing, the new parent
folder position, and the state): for each recorded sub-folder position, append
its `"."` entry (self-link) and `".."` entry (the clone keeps the self
`folder` link; `parent` and `data` are redirected to the parent, with the
sentinel when the parent position is 0), then recurse into the listed child at
`iter[fpos - 1]` (`fpos - 1` underflows — a panic — when `fpos = 0`, and
`read_dir(..).unwrap()` panics when that child is a file). -/
def importnoteDirs (rec : List FSEntry → Nat → RARC → Option RARC) :
    List FSEntry → Nat → List Nat → RARC → Option RARC
  | _, _, [], s => some s
  | entries, parent, fpos :: rest, s =>
    if fpos < s.folders.length then
      let d1 : DirNode := { name := dotName, attr := FOLDER, folder := some fpos,
                            parent := some fpos, node := { data := fpos % 2 ^ 32 } }
      let s1 := { s with dirs := s.dirs ++ [d1] }
      let parpos := parposOf s1 parent
      let dval := if parpos = 0 then UMAX else parpos % 2 ^ 32
      let d2 : DirNode := { d1 with
        name := dotdotName, parent := some parent, node := { d1.node with data := dval } }
      let s2 := { s1 with dirs := s1.dirs ++ [d2] }
      if fpos = 0 then none
      else if h : fpos - 1 < entries.length then
        let item := entries.get ⟨fpos - 1, h⟩
        if item.name = dotName ∨ item.name = dotdotName then
          importnoteDirs rec entries parent rest s2
        else
          match item with
          | .file _ _ => none
          | .dir _ ch =>
            match rec ch fpos s2 with
            | none => none
            | some s3 => importnoteDirs rec entries parent rest s3
      else none
    else none

/-- `RARC::importnote` (lines 292-371).  `entries` is the `read_dir` listing of
the directory being imported; `parent` the parent-folder pointer (index);
`none` models a panic (out-of-bounds index, or `read_dir(..).unwrap()` on a
non-directory); the fuel argument only bounds the recursion depth. -/
def importnote : Nat → List FSEntry → Nat → Nat → RARC → Option RARC
  | 0, _, _, _, _ => none
  | fuel + 1, entries, parent, attr, s =>
    let parpos := parposOf s parent
    if parpos < s.folders.length then
      let f0 := s.folders.getD parpos {}
      let s1 := setFolder s parpos { f0 with node := { f0.node with firstfileoff := parpos % 2 ^ 32 } }
      match importPass1 parent attr entries s1 0 [] with
      | (s2, nodelen, dirpos) =>
        let f1 := s2.folders.getD parpos {}
        let s3 := setFolder s2 parpos { f1 with node := { f1.node with filecount := (nodelen + 2) % 65536 } }
        match importnoteDirs (fun ch fpos st => importnote fuel ch fpos attr st)
            entries parent dirpos s3 with
        | none => none
        | some s4 =>
          if dirpos.isEmpty then
            let dval := if parpos = 0 then UMAX else parpos % 2 ^ 32
            let d1 : DirNode := { name := dotName, attr := FOLDER, folder := some parent,
                                  parent := some parent, node := { data := dval } }
            some { s4 with dirs := s4.dirs ++ [d1, { d1 with name := dotdotName }] }
          else some s4
    else none

/-- `path.rfind(..)` on the name bytes: index of the last occurrence. -/
def rfindByte (l : List Nat) (b : Nat) : Option Nat :=
  match l.reverse.findIdx? (· == b) with
  | some i => some (l.length - 1 - i)
  | none => none

/-- The root-creation step of `RARC::importfromfolder` (lines 373-383): when
the folder table is empty, push a root record named by the substring after the
last `'\\'` (the whole string when there is none), with the fixed `ROOT`
short-name tag, marked as root. -/
def ensureRoot (name : List Nat) (s : RARC) : RARC :=
  if s.folders.length = 0 then
    let idx := match rfindByte name 92 with
      | some n => n + 1
      | none => 0
    { s with folders :=
        s.folders ++ [{ name := name.drop idx, isroot := true, node := { shortname := rootTag } }] }
  else s

/-- `RARC::importfromfolder` (lines 372-385): ensure a root folder exists, then
bring in the directory contents under it (`&self.folders[0]`, index 0).
`read_dir` on a non-directory path makes the nested `importnote` panic. -/
def importfromfolder (fuel : Nat) (name : List Nat) (root : FSEntry) (attr : Nat) (s : RARC) :
    Option RARC :=
  let s1 := ensureRoot name s
  match root with
  | .file _ _ => none
  | .dir _ ch => importnote fuel ch 0 attr s1

/-- `RARC::getchildren` (lines 209-216): the entries whose table index lies in
the folder's child range (the range bound is `u32` arithmetic), in table
order. -/
def getchildren (s : RARC) (f : FileNode) : List DirNode :=
  let a := f.node.firstfileoff
  let b := (f.node.firstfileoff + f.node.filecount) % 2 ^ 32
  (s.dirs.enum.filter fun p => a ≤ p.1 && p.1 < b).map (·.2)

/-- `RARC::findfolder` (lines 217-222): dereference the entry's folder link. -/
def findfolder (s : RARC) (d : DirNode) : Option FileNode :=
  match d.folder with
  | some n => s.folders.get? n
  | none => none

/-- Result of `RARC::getroot`: a folder chain, a panic (out-of-bounds index),
or fuel exhaustion (the Rust loop can run forever on cyclic links). -/
inductive GRes where
  | ok (l : List FileNode)
  | panic
  | nofuel
deriving DecidableEq, Repr

/-- The `while let` loop of `RARC::getroot` (lines 227-239), accumulating
pushed folders in `acc` (reversed on return).  A non-root folder's child list
is re-derived and its last element (`dirs[dirs.len() - 1]`) taken unguarded:
an empty list means a panic. -/
def getrootGo (s : RARC) : Nat → DirNode → List FileNode → GRes
  | 0, _, _ => .nofuel
  | fuel + 1, fnode, acc =>
    match findfolder s fnode with
    | none => .ok acc.reverse
    | some folder =>
      if folder.isroot then .ok (acc ++ [folder]).reverse
      else
        match (getchildren s folder).getLast? with
        | none => .panic
        | some f1 => getrootGo s fuel f1 (acc ++ [folder])

/-- `RARC::getroot` (lines 223-240): start from the second-to-last element of
the given child list (`dirs[dirs.len() - 2]`, unguarded — fewer than two
elements is a panic), then walk linked folders to the root. -/
def getroot (s : RARC) (fuel : Nat) (dirs : List DirNode) : GRes :=
  if dirs.length ≥ 2 then getrootGo s fuel (dirs.getD (dirs.length - 2) {}) []
  else .panic

/-! ### Concrete inputs and specification-side functions used by the claims -/

/-- Big-endian byte image of a `u32`. -/
def u32be (x : Nat) : List Nat := [x / 16777216 % 256, x / 65536 % 256, x / 256 % 256, x % 256]

/-- Big-endian byte image of a `u16`. -/
def u16be (x : Nat) : List Nat := [x / 256 % 256, x % 256]

/-- A 75-byte big-endian archive image: header size 32, file-data offset 100,
one entry record with attributes `FILE`, `data = 0` and `datasize = 1000` —
its payload region `[132, 1132)` lies far beyond the buffer. -/
def bufC1 : List Nat :=
  rarcMagic ++
  (u32be 0 ++ u32be 32 ++ u32be 100 ++ u32be 0 ++ u32be 0 ++ u32be 0 ++ u32be 0) ++
  (u32be 0 ++ u32be 0 ++ u32be 1 ++ u32be 27 ++ u32be 0 ++ u32be 0) ++
  u16be 0 ++ [0] ++
  (u16be 0 ++ u16be 0 ++ u32be 16777216 ++ u32be 0 ++ u32be 1000)

/-- Like `bufC1` but the single entry has `attrandnameoff = 0x00010000`
(no attribute bits, name-offset bit 16 set) and an empty payload. -/
def bufC2 : List Nat :=
  rarcMagic ++
  (u32be 0 ++ u32be 32 ++ u32be 100 ++ u32be 0 ++ u32be 0 ++ u32be 0 ++ u32be 0) ++
  (u32be 0 ++ u32be 0 ++ u32be 1 ++ u32be 27 ++ u32be 0 ++ u32be 0) ++
  u16be 0 ++ [0] ++
  (u16be 0 ++ u16be 0 ++ u32be 65536 ++ u32be 0 ++ u32be 0)

/-- The first four bytes of a buffer (byte values). -/
def first4 (buf : List Nat) : List Nat := (buf.take 4).map (· % 256)

/-- Spec-side function: the last path component of a backslash-separated path
(the longest suffix containing no `'\\'` byte). -/
def suffixAfterBackslash (l : List Nat) : List Nat := (l.reverse.takeWhile (fun b => b != 92)).reverse

/-- Spec-side function: the last path component of a slash-separated path
(the longest suffix containing no `'/'` byte). -/
def suffixAfterSlash (l : List Nat) : List Nat := (l.reverse.takeWhile (fun b => b != 47)).reverse

/-- Bytes of `"root"`. -/
def rootBytes : List Nat := [114, 111, 111, 116]

/-- Bytes of `"sub"`. -/
def subBytes : List Nat := [115, 117, 98]

/-- Bytes of `"b.txt"`. -/
def bTxtBytes : List Nat := [98, 46, 116, 120, 116]

/-- Bytes of `"a/root"`. -/
def aSlashRootBytes : List Nat := [97, 47, 114, 111, 111, 116]

/-- The directory tree `root/sub/b.txt` (one 4-byte file). -/
def fsC4 : FSEntry := .dir rootBytes [.dir subBytes [.file bTxtBytes [1, 2, 3, 4]]]

/-- The archive built by importing `root/sub/b.txt` into an empty `RARC`. -/
def impC4 : Option RARC := importfromfolder 10 rootBytes fsC4 FILE {}

/-- An empty directory named `"r"`. -/
def fsEmptyDir : FSEntry := .dir [114] []

/-- A linker input with one folder (hash 0) and two FOLDER entries, both with
`data = 0` and hash 0 — two hash-matching candidates for the same folder. -/
def cexC5state : RARC := { folders := [{}], dirs := [{ attr := 2 }, { attr := 2 }] }

/-- A linker input whose single folder has `firstfileoff = u32::MAX` and
`filecount = 2`: the `u32` upper bound of the child-range loop wraps to 1,
so the loop body never runs. -/
def cexC10state : RARC :=
  { folders := [{ node := { firstfileoff := 4294967295, filecount := 2 } }], dirs := [] }

/-- Whether entry `m` is a hash-matching FOLDER reference to folder `j` with
expected hash `h`: the condition under which `sortparents`' first loop sets
the folder's back-link while processing entry `m`. -/
def matchAt (ds : List DirNode) (j h m : Nat) : Bool :=
  dircond (ds.getD m {}) && (ds.getD m {}).node.data == j && (ds.getD m {}).node.hash == h

/-- The last index in the window `[i, i + k)` at which `matchAt` holds. -/
def lastMatchIn (ds : List DirNode) (j h : Nat) : Nat → Nat → Option Nat
  | _, 0 => none
  | i, k + 1 =>
    match lastMatchIn ds j h (i + 1) k with
    | some r => some r
    | none => if matchAt ds j h i then some i else none

/-- Whether entry index `m` lies in folder `f`'s child range (with the `u32`
wrapped upper bound, as iterated by `sortparents`' second loop). -/
def inChild (f : FileNode) (m : Nat) : Bool :=
  f.node.firstfileoff ≤ m && m < (f.node.firstfileoff + f.node.filecount) % 2 ^ 32

/-- The last folder index in the window `[j, j + k)` whose child range
contains entry `m`. -/
def lastOwner (fs : List FileNode) : Nat → Nat → Nat → Option Nat
  | _, 0, _ => none
  | j, k + 1, m =>
    match lastOwner fs (j + 1) k m with
    | some q => some q
    | none => if inChild (fs.getD j {}) m then some j else none

/-- The second linker loop does not panic on folder `f` over an entry table of
length `n`: the wrapped range bound either makes the loop empty or stays
within bounds. -/
def rangeOk (f : FileNode) (n : Nat) : Prop :=
  (f.node.firstfileoff + f.node.filecount) % 2 ^ 32 ≤ f.node.firstfileoff ∨
  (f.node.firstfileoff + f.node.filecount) % 2 ^ 32 ≤ n

/-- Totality condition of the linker's first loop: every FOLDER-attributed
entry with non-sentinel `data` indexes within the folder table. -/
def phase1Ok (s : RARC) : Prop :=
  ∀ m, m < s.dirs.length → dircond (s.dirs.getD m {}) = true →
    (s.dirs.getD m {}).node.data < s.folders.length

/-- Totality condition of the linker's second loop: every folder's (wrapped)
child range lies within entry-table bounds or is empty. -/
def phase2Ok (s : RARC) : Prop :=
  ∀ q, q < s.folders.length → rangeOk (s.folders.getD q {}) s.dirs.length

/-- The payload read of entry record `n` (if FILE-attributed) stays within the
buffer. -/
def payloadOkN (buf : List Nat) (hdr : Header) (n : DirNodeRec) : Prop :=
  attrContains (deriveAttr n.attrandnameoff) FILE = true →
    (hdr.filedataoff + hdr.headersize + n.data) % 2 ^ 32 + n.datasize ≤ buf.length

/-- All FILE-attributed entry records decoded from `buf` have in-bounds
payload regions. -/
def payloadOk (native : Endian) (buf : List Nat) : Prop :=
  ∀ n ∈ dirNodesOf native buf, payloadOkN buf (decodeEnv native buf).2.1 n

/-- The decoded tables satisfy the linker's totality conditions. -/
def linkOk (native : Endian) (buf : List Nat) : Prop :=
  match parsePre native buf with
  | none => True
  | some pre => phase1Ok pre ∧ phase2Ok pre

instance (s : RARC) : Decidable (phase1Ok s) :=
  inferInstanceAs (Decidable (∀ m, m < s.dirs.length → dircond (s.dirs.getD m {}) = true →
    (s.dirs.getD m {}).node.data < s.folders.length))

instance (s : RARC) : Decidable (phase2Ok s) :=
  inferInstanceAs (Decidable (∀ q, q < s.folders.length →
    ((s.folders.getD q {}).node.firstfileoff + (s.folders.getD q {}).node.filecount) % 2 ^ 32
        ≤ (s.folders.getD q {}).node.firstfileoff ∨
      ((s.folders.getD q {}).node.firstfileoff + (s.folders.getD q {}).node.filecount) % 2 ^ 32
        ≤ s.dirs.length))

instance (native : Endian) (buf : List Nat) : Decidable (linkOk native buf) :=
  match hp : parsePre native buf with
  | none => Decidable.isTrue (show linkOk native buf by unfold linkOk; rw [hp]; exact trivial)
  | some pre => decidable_of_iff (phase1Ok pre ∧ phase2Ok pre) (by unfold linkOk; rw [hp])

instance (buf : List Nat) (hdr : Header) (n : DirNodeRec) : Decidable (payloadOkN buf hdr n) :=
  inferInstanceAs (Decidable (attrContains (deriveAttr n.attrandnameoff) FILE = true →
    (hdr.filedataoff + hdr.headersize + n.data) % 2 ^ 32 + n.datasize ≤ buf.length))

instance (native : Endian) (buf : List Nat) : Decidable (payloadOk native buf) :=
  inferInstanceAs (Decidable (∀ n ∈ dirNodesOf native buf,
    payloadOkN buf (decodeEnv native buf).2.1 n))

/-! ### List and arithmetic helper lemmas -/

lemma getD_set_self {l : List α} {i : Nat} (a d : α) (h : i < l.length) :
    (l.set i a).getD i d = a := by
  rw [List.getD_eq_getElem?_getD, List.getElem?_set_self h]
  rfl

lemma getD_set_ne {l : List α} {i j : Nat} (a d : α) (h : i ≠ j) :
    (l.set i a).getD j d = l.getD j d := by
  rw [List.getD_eq_getElem?_getD, List.getElem?_set_ne h, ← List.getD_eq_getElem?_getD]

lemma getD_append_first {l : List α} (a b d : α) :
    (l ++ [a, b]).getD l.length d = a := by
  rw [List.getD_eq_getElem?_getD, List.getElem?_append_right (Nat.le_refl _)]
  simp

lemma getD_append_second {l : List α} (a b d : α) :
    (l ++ [a, b]).getD (l.length + 1) d = b := by
  rw [List.getD_eq_getElem?_getD, List.getElem?_append_right (Nat.le_succ_of_le (Nat.le_refl _))]
  simp

/-- A list is its own length-long take of anything `takeWhile` produced. -/
lemma take_of_takeWhile (p : α → Bool) : ∀ (l t : List α), l.takeWhile p = t → l.take t.length = t := by
  intro l
  induction l with
  | nil => intro t h; simpa [List.takeWhile] using h.symm ▸ by simp [← h]
  | cons a as ih =>
    intro t h
    rw [List.takeWhile_cons] at h
    by_cases hp : p a = true
    · rw [if_pos hp] at h
      match t, h with
      | _, rfl => simp [List.take_succ_cons, ih _ rfl]
    · rw [if_neg hp] at h
      simp [← h]

lemma low24_mod (x : Nat) : x &&& 16777215 = x % 16777216 := by
  have h := Nat.and_pow_two_sub_one_eq_mod x 24
  norm_num at h
  exact h

/-! ### C2 — unpacking of `attrandnameoff` -/

/-- C2, counterexample: decoding `bufC2` yields one entry whose packed field is
`0x00010000`; its low 24 bits are `65536`, but the derived `nameoff` is `0` —
the `u16` cast truncates the 24-bit value, so the claim "nameOffset equals the
low 24 bits" is false for this decoded entry. -/
theorem C2_counterexample :
    (RARC.read .little bufC2).map (fun s => s.dirs.map fun d => (d.node.attrandnameoff, d.nameoff))
      = some [(65536, 0)] ∧ 65536 &&& 16777215 = 65536 ∧ (0 : Nat) ≠ 65536 := by
  exact ⟨by decide, by decide, by decide⟩

/-- C2, amended: the derived `nameoff` is the packed field reduced mod 2^16
(the low-24-bit mask composed with the `u16` cast keeps only the low 16 bits),
and the derived attribute bitmask is the high 8 bits (`x / 2^24`). -/
theorem C2_unpack_amended (x : Nat) (hx : x < 4294967296) :
    deriveNameoff x = x % 65536 ∧ deriveAttr x = x / 16777216 := by
  constructor
  · unfold deriveNameoff
    rw [low24_mod]
    exact Nat.mod_mod_of_dvd x (by norm_num)
  · unfold deriveAttr
    rw [Nat.shiftRight_eq_div_pow]
    norm_num
    exact Nat.div_lt_of_lt_mul (show x < 16777216 * 256 by omega)

/-- C2, witness for the amended theorem at `x = 0x00010000`. -/
theorem C2_unpack_amended_witness :
    deriveNameoff 65536 = 65536 % 65536 ∧ deriveAttr 65536 = 65536 / 16777216 :=
  C2_unpack_amended 65536 (by decide)

/-! ### C3 — byte-order detection -/

/-- When the first four bytes match a 4-byte tag of non-zero bytes and the
byte at offset 4 is zero (or the buffer ends), the null-terminated read at
offset 0 returns exactly the tag. -/
lemma readnt_of_first4 (buf : List Nat) (m0 m1 m2 m3 : Nat)
    (h : first4 buf = [m0, m1, m2, m3]) (hz : byteAt buf 4 = 0)
    (n0 : m0 ≠ 0) (n1 : m1 ≠ 0) (n2 : m2 ≠ 0) (n3 : m3 ≠ 0) :
    readnt buf 0 = [m0, m1, m2, m3] := by
  match buf with
  | [] => simp [first4] at h
  | [b0] => simp [first4] at h
  | [b0, b1] => simp [first4] at h
  | [b0, b1, b2] => simp [first4] at h
  | b0 :: b1 :: b2 :: b3 :: rest =>
    simp [first4] at h
    obtain ⟨e0, e1, e2, e3⟩ := h
    rcases rest with _ | ⟨r, t⟩
    · simp [readnt, List.takeWhile_cons, e0, e1, e2, e3, n0, n1, n2, n3]
    · have hr : r % 256 = 0 := by simpa [byteAt] using hz
      simp [readnt, List.takeWhile_cons, e0, e1, e2, e3, n0, n1, n2, n3, hr]

/-- When the first four bytes match a non-zero 4-byte tag but the byte at
offset 4 is non-zero, the null-terminated read has at least 5 bytes. -/
lemma readnt_long_of_fifth (buf : List Nat) (m0 m1 m2 m3 : Nat)
    (h : first4 buf = [m0, m1, m2, m3]) (hz : byteAt buf 4 ≠ 0)
    (n0 : m0 ≠ 0) (n1 : m1 ≠ 0) (n2 : m2 ≠ 0) (n3 : m3 ≠ 0) :
    5 ≤ (readnt buf 0).length := by
  match buf with
  | [] => simp [first4] at h
  | [b0] => simp [first4] at h
  | [b0, b1] => simp [first4] at h
  | [b0, b1, b2] => simp [first4] at h
  | [b0, b1, b2, b3] => simp [byteAt] at hz
  | b0 :: b1 :: b2 :: b3 :: r :: t =>
    simp [first4] at h
    obtain ⟨e0, e1, e2, e3⟩ := h
    have hr : r % 256 ≠ 0 := by simpa [byteAt] using hz
    simp [readnt, List.takeWhile_cons, e0, e1, e2, e3, n0, n1, n2, n3, hr]

/-- The magic bytes are determined by a successful 4-byte null-terminated
read: `readnt` is a prefix, so its first four bytes are the buffer's. -/
lemma first4_of_readnt (buf : List Nat) (m0 m1 m2 m3 : Nat)
    (h : readnt buf 0 = [m0, m1, m2, m3]) : first4 buf = [m0, m1, m2, m3] := by
  unfold readnt at h
  rw [List.drop_zero] at h
  have hlen : (buf.takeWhile (fun b => b % 256 != 0)).length = 4 := by
    have := congrArg List.length h
    simpa using this
  have htake := take_of_takeWhile (fun b => b % 256 != 0) buf _ rfl
  rw [hlen] at htake
  unfold first4
  rw [htake, h]

/-- C3, counterexample: two buffers with identical magic bytes at offset 0
(`"RARC"`), yet one selects big endian and the other the platform default —
the selection reads a null-terminated string and so depends on the byte at
offset 4, not only on the 4 magic bytes. -/
theorem C3_counterexample :
    first4 [82, 65, 82, 67] = rarcMagic ∧ first4 [82, 65, 82, 67, 1] = rarcMagic ∧
    detectEndian .little [82, 65, 82, 67] = .big ∧
    detectEndian .little [82, 65, 82, 67, 1] = .little ∧ Endian.big ≠ Endian.little := by
  exact ⟨by decide, by decide, by decide, by decide, by decide⟩

/-- C3, amended: selection is by the null-terminated byte string at offset 0.
`"RARC"` at offset 0 selects big endian only when the buffer ends or carries a
zero byte at offset 4 (`byteAt buf 4 = 0`, and likewise `"CRAR"` for little
endian); with a non-zero byte at offset 4 the string comparison fails and the
platform default is used; buffers whose magic bytes match neither tag also get
the platform default. -/
theorem C3_detect_amended :
    (∀ native buf, first4 buf = rarcMagic → byteAt buf 4 = 0 → detectEndian native buf = .big) ∧
    (∀ native buf, first4 buf = crarMagic → byteAt buf 4 = 0 → detectEndian native buf = .little) ∧
    (∀ native buf, first4 buf = rarcMagic → byteAt buf 4 ≠ 0 → detectEndian native buf = native) ∧
    (∀ native buf, first4 buf = crarMagic → byteAt buf 4 ≠ 0 → detectEndian native buf = native) ∧
    (∀ native buf, first4 buf ≠ rarcMagic → first4 buf ≠ crarMagic →
      detectEndian native buf = native) := by
  refine ⟨?_, ?_, ?_, ?_, ?_⟩
  · intro native buf h hz
    have := readnt_of_first4 buf 82 65 82 67 h hz (by decide) (by decide) (by decide) (by decide)
    simp [detectEndian, this, rarcMagic]
  · intro native buf h hz
    have := readnt_of_first4 buf 67 82 65 82 h hz (by decide) (by decide) (by decide) (by decide)
    simp [detectEndian, this, rarcMagic, crarMagic]
  · intro native buf h hz
    have hlong := readnt_long_of_fifth buf 82 65 82 67 h hz (by decide) (by decide) (by decide) (by decide)
    have hne1 : readnt buf 0 ≠ rarcMagic := by
      intro he; rw [he] at hlong; simp [rarcMagic] at hlong
    have hne2 : readnt buf 0 ≠ crarMagic := by
      intro he; rw [he] at hlong; simp [crarMagic] at hlong
    simp [detectEndian, hne1, hne2]
  · intro native buf h hz
    have hlong := readnt_long_of_fifth buf 67 82 65 82 h hz (by decide) (by decide) (by decide) (by decide)
    have hne1 : readnt buf 0 ≠ rarcMagic := by
      intro he; rw [he] at hlong; simp [rarcMagic] at hlong
    have hne2 : readnt buf 0 ≠ crarMagic := by
      intro he; rw [he] at hlong; simp [crarMagic] at hlong
    simp [detectEndian, hne1, hne2]
  · intro native buf h1 h2
    have hne1 : readnt buf 0 ≠ rarcMagic := fun he => h1 (first4_of_readnt buf 82 65 82 67 he)
    have hne2 : readnt buf 0 ≠ crarMagic := fun he => h2 (first4_of_readnt buf 67 82 65 82 he)
    simp [detectEndian, hne1, hne2]

/-- C3, witness for the amended theorem: the first conjunct applied to the
4-byte buffer `"RARC"`. -/
theorem C3_detect_amended_witness : detectEndian .little [82, 65, 82, 67] = .big :=
  C3_detect_amended.1 .little [82, 65, 82, 67] (by decide) (by decide)

/-! ### C9 — unguarded indexing in the path resolver -/

/-- C9: `getroot` indexes `dirs[dirs.len() - 2]` unguarded, so any child list
with fewer than two elements panics (first two conjuncts: the panic, and that
a non-panic run certifies the length precondition); and whenever the walk
reaches a non-root linked folder whose child list is empty, the unguarded
`dirs[dirs.len() - 1]` panics (third conjunct). -/
theorem C9_getroot_totality :
    (∀ (s : RARC) (fuel : Nat) (dirs : List DirNode), dirs.length < 2 →
      getroot s fuel dirs = .panic) ∧
    (∀ (s : RARC) (fuel : Nat) (dirs : List DirNode) (l : List FileNode),
      getroot s fuel dirs = .ok l → 2 ≤ dirs.length) ∧
    (∀ (s : RARC) (fuel : Nat) (fnode : DirNode) (acc : List FileNode) (f : FileNode),
      findfolder s fnode = some f → f.isroot = false → getchildren s f = [] →
      getrootGo s (fuel + 1) fnode acc = .panic) := by
  refine ⟨?_, ?_, ?_⟩
  · intro s fuel dirs h
    simp only [getroot, if_neg (by omega : ¬ dirs.length ≥ 2)]
  · intro s fuel dirs l h
    by_contra hc
    rw [getroot, if_neg (by omega : ¬ dirs.length ≥ 2)] at h
    exact GRes.noConfusion h
  · intro s fuel fnode acc f h1 h2 h3
    simp [getrootGo, h1, h2, h3]

/-- C9, witness: the first conjunct applied to the empty child list. -/
theorem C9_getroot_totality_witness : getroot {} 1 [] = .panic :=
  C9_getroot_totality.1 {} 1 [] (by decide)

/-! ### C4 — the `root/sub/b.txt` import scenario -/

/-- C4: evaluating the importer on the tree `root/sub/b.txt` does produce
exactly the two folder records `root` and `sub`, but the Path Resolver applied
to `sub`'s children returns only `["sub"]`, not `["root", "sub"]`: the import
gives `sub` the child range `[1, 4)` (its own folder index instead of its
children's start) whose last element is the `b.txt` FILE entry, and the `".."`
entry's folder link points at `sub` itself, so the walk stops after one
step. -/
theorem C4_import_path_eval :
    (impC4.map fun s => s.folders.map (·.name)) = some [rootBytes, subBytes] ∧
    (impC4.map fun s =>
        match getroot s 10 (getchildren s (s.folders.getD 1 {})) with
        | .ok l => some (l.map (·.name))
        | _ => none) = some (some [subBytes]) ∧
    [subBytes] ≠ [rootBytes, subBytes] := by
  exact ⟨by decide, by decide, by decide⟩

/-! ### C6 — a folder with zero real children -/

/-- C6: importing a directory with an empty listing appends exactly the two
synthetic entries `"."` and `".."`, in that order, and sets the parent
folder's `filecount` to exactly 2. -/
theorem C6_empty_dir (fuel parent attr : Nat) (s : RARC) (h : parent < s.folders.length) :
    ∃ t, importnote (fuel + 1) [] parent attr s = some t ∧
      t.dirs.length = s.dirs.length + 2 ∧
      (t.dirs.getD s.dirs.length {}).name = dotName ∧
      (t.dirs.getD (s.dirs.length + 1) {}).name = dotdotName ∧
      (t.folders.getD parent {}).node.filecount = 2 := by
  have hpar : parposOf s parent = parent := if_pos h
  simp only [importnote, hpar, importPass1]
  rw [if_pos (by simpa using h)]
  simp only [importnoteDirs, List.isEmpty_nil, if_pos rfl]
  refine ⟨_, rfl, ?_, ?_, ?_, ?_⟩
  · simp [setFolder]
  · simp only [setFolder]
    rw [getD_append_first]
  · simp only [setFolder]
    rw [getD_append_second]
  · simp only [setFolder]
    rw [getD_set_self _ _ (by simpa using h)]

/-- C6, witness: a one-folder archive, importing an empty listing under
folder 0. -/
theorem C6_empty_dir_witness :
    ∃ t, importnote 1 [] 0 1 { folders := [{}] } = some t ∧
      t.dirs.length = ({ folders := [{}] } : RARC).dirs.length + 2 ∧
      (t.dirs.getD ({ folders := [{}] } : RARC).dirs.length {}).name = dotName ∧
      (t.dirs.getD (({ folders := [{}] } : RARC).dirs.length + 1) {}).name = dotdotName ∧
      (t.folders.getD 0 {}).node.filecount = 2 :=
  C6_empty_dir 0 0 1 { folders := [{}] } (by decide)

/-! ### C1, C5, C8, C10 — counterexample evaluations -/

/-- C1, counterexample: decoding `bufC1` — a well-formed 75-byte image whose
single entry is FILE-attributed with a 1000-byte payload declared at offset
132 — panics (the payload `read_exact(..).unwrap()`) instead of substituting a
default record, so `RARC::read` does not complete on every buffer. -/
theorem C1_counterexample :
    RARC.read .little bufC1 = none ∧
    (dirNodesOf .little bufC1).map (fun n => (deriveAttr n.attrandnameoff, n.datasize)) = [(1, 1000)] ∧
    bufC1.length = 75 := by
  exact ⟨by decide, by decide, by decide⟩

/-- C5, counterexample: in `cexC5state` both entries carry the FOLDER
attribute, `data = 0` and a hash equal to folder 0's hash, yet after linking
the folder's back-link is entry 1 — for entry 0 the hashes are equal but the
folder's `linkedEntry` is not set back to it (the later match overwrote it),
refuting the claimed "if and only if". -/
theorem C5_counterexample :
    (sortparents cexC5state).map (fun t => t.folders.map (·.dir)) = some [some 1] ∧
    dircond (cexC5state.dirs.getD 0 {}) = true ∧
    (cexC5state.dirs.getD 0 {}).node.data = 0 ∧
    (cexC5state.dirs.getD 0 {}).node.hash = (cexC5state.folders.getD 0 {}).node.hash ∧
    (some 1 : Option Nat) ≠ some 0 := by
  exact ⟨by decide, by decide, by decide, by decide, by decide⟩

/-- C8, counterexample: importing under the root path `"a/root"` (slash
separated) names the root folder `"a/root"`, not the last path component
`"root"` — only `'\\'` is recognized as a separator. -/
theorem C8_counterexample :
    (importfromfolder 3 aSlashRootBytes fsEmptyDir FILE {}).map (fun s => s.folders.map (·.name))
      = some [aSlashRootBytes] ∧
    suffixAfterSlash aSlashRootBytes = rootBytes ∧ aSlashRootBytes ≠ rootBytes := by
  exact ⟨by decide, by decide, by decide⟩

/-- C10, counterexample: in `cexC10state` the only folder's child range
`[u32::MAX, u32::MAX + 2)` does not lie within the (empty) entry table, yet
the linker does not panic: the `u32` range bound wraps to 1, making the loop
empty — refuting the claimed "if and only if" for mathematical ranges. -/
theorem C10_counterexample :
    (sortparents cexC10state).isSome = true ∧
    ¬ ((cexC10state.folders.getD 0 {}).node.filecount = 0 ∨
        (cexC10state.folders.getD 0 {}).node.firstfileoff +
          (cexC10state.folders.getD 0 {}).node.filecount ≤ cexC10state.dirs.length) := by
  exact ⟨by decide, by decide⟩

/-! ### C8 — root creation, amended -/

/-- `findIdx?` with start offset `st` only returns indices `≥ st`. -/
lemma findIdx?_ge (p : Nat → Bool) : ∀ (r : List Nat) (st i : Nat),
    r.findIdx? p st = some i → st ≤ i := by
  intro r
  induction r with
  | nil => intro st i h; simp [List.findIdx?] at h
  | cons a as ih =>
    intro st i h
    rw [List.findIdx?_cons] at h
    by_cases hp : p a = true
    · rw [if_pos hp] at h
      cases h
      exact Nat.le_refl _
    · rw [if_neg hp] at h
      exact Nat.le_of_succ_le (ih (st + 1) i h)

/-- `findIdx?` with start offset `st` only returns indices `< st + length`. -/
lemma findIdx?_lt (p : Nat → Bool) : ∀ (r : List Nat) (st i : Nat),
    r.findIdx? p st = some i → i < st + r.length := by
  intro r
  induction r with
  | nil => intro st i h; simp [List.findIdx?] at h
  | cons a as ih =>
    intro st i h
    rw [List.findIdx?_cons] at h
    by_cases hp : p a = true
    · rw [if_pos hp] at h
      cases h
      simp
    · rw [if_neg hp] at h
      have := ih (st + 1) i h
      simpa [Nat.succ_add] using this

/-- When the stop byte `c` occurs first at index `i` (from start offset `st`),
`takeWhile (· != c)` keeps exactly the first `i - st` elements. -/
lemma takeWhile_of_findIdx? (c : Nat) : ∀ (r : List Nat) (st i : Nat),
    r.findIdx? (fun b => b == c) st = some i →
    r.takeWhile (fun b => b != c) = r.take (i - st) := by
  intro r
  induction r with
  | nil => intro st i h; simp [List.findIdx?] at h
  | cons a as ih =>
    intro st i h
    rw [List.findIdx?_cons] at h
    by_cases hp : (a == c) = true
    · rw [if_pos hp] at h
      cases h
      have hfalse : (a != c) = false := by simp [eq_of_beq hp]
      simp [List.takeWhile_cons, hfalse, Nat.sub_self]
    · rw [if_neg hp] at h
      have hge := findIdx?_ge (fun b => b == c) as (st + 1) i h
      have htw := ih (st + 1) i h
      have hsub : i - st = (i - (st + 1)) + 1 := by omega
      simp only [List.takeWhile_cons, hsub, List.take_succ_cons]
      rw [if_pos (by simpa using hp), htw]

/-- When the stop byte `c` does not occur, `takeWhile (· != c)` keeps
everything. -/
lemma takeWhile_of_findIdx?_none (c : Nat) : ∀ (r : List Nat) (st : Nat),
    r.findIdx? (fun b => b == c) st = none →
    r.takeWhile (fun b => b != c) = r := by
  intro r
  induction r with
  | nil => intro st _; simp
  | cons a as ih =>
    intro st h
    rw [List.findIdx?_cons] at h
    by_cases hp : (a == c) = true
    · rw [if_pos hp] at h; exact Option.noConfusion h
    · rw [if_neg hp] at h
      simp only [List.takeWhile_cons]
      rw [if_pos (by simpa using hp), ih (st + 1) h]

/-- The `rfind`-and-drop computation of `ensureRoot` equals the spec-side
"longest suffix with no backslash". -/
lemma drop_rfind_eq_suffix (name : List Nat) :
    name.drop (match rfindByte name 92 with | some n => n + 1 | none => 0)
      = suffixAfterBackslash name := by
  unfold rfindByte suffixAfterBackslash
  cases hf : name.reverse.findIdx? (fun b => b == 92) with
  | none =>
    rw [takeWhile_of_findIdx?_none 92 name.reverse 0 hf]
    simp
  | some i =>
    have hlt : i < name.length := by
      have := findIdx?_lt (fun b => b == 92) name.reverse 0 i hf
      simpa using this
    rw [takeWhile_of_findIdx? 92 name.reverse 0 i hf]
    simp only [Nat.sub_zero]
    have h1 : name.length - 1 - i + 1 = name.length - i := by omega
    rw [h1, List.reverse_take]
    simp

/-- C8, amended: when the folder table is empty, the root record created by
`importfromfolder` is named by the substring after the last backslash (the
whole path when no backslash occurs — forward slashes are not treated as
separators), its short name is the fixed 4-byte `ROOT` tag, and it is marked
as root. -/
theorem C8_root_creation_amended (name : List Nat) (s : RARC) (h : s.folders.length = 0) :
    (ensureRoot name s).folders.map (·.name) = [suffixAfterBackslash name] ∧
    (ensureRoot name s).folders.map (·.node.shortname) = [rootTag] ∧
    (ensureRoot name s).folders.map (·.isroot) = [true] := by
  have hnil : s.folders = [] := List.length_eq_zero.mp h
  unfold ensureRoot
  rw [if_pos h, hnil]
  refine ⟨?_, by simp, by simp⟩
  simp only [List.nil_append, List.map_cons, List.map_nil]
  rw [drop_rfind_eq_suffix]

/-- C8, witness for the amended theorem at the path `"a\\root"` over an empty
archive. -/
theorem C8_root_creation_amended_witness :
    (ensureRoot [97, 92, 114, 111, 111, 116] {}).folders.map (·.name)
        = [suffixAfterBackslash [97, 92, 114, 111, 111, 116]] ∧
    (ensureRoot [97, 92, 114, 111, 111, 116] {}).folders.map (·.node.shortname) = [rootTag] ∧
    (ensureRoot [97, 92, 114, 111, 111, 116] {}).folders.map (·.isroot) = [true] :=
  C8_root_creation_amended [97, 92, 114, 111, 111, 116] {} (by decide)


/-! ### Characterization of the Tree Linker -/

lemma getD_of_le {l : List α} (d : α) {m : Nat} (h : l.length ≤ m) : l.getD m d = d := by
  rw [List.getD_eq_getElem?_getD, List.getElem?_eq_none h]
  rfl

lemma list_eq_of_getD {l1 l2 : List α} (d : α) (hlen : l1.length = l2.length)
    (h : ∀ m, m < l1.length → l1.getD m d = l2.getD m d) : l1 = l2 := by
  apply List.ext_getElem hlen
  intro n h1 h2
  have hn := h n h1
  rwa [List.getD_eq_getElem _ _ h1, List.getD_eq_getElem _ _ h2] at hn

/-- The first linker loop succeeds on the window `[i, i + k)` exactly when
every FOLDER entry with non-sentinel `data` there stays within the folder
table. -/
lemma phase1Go_isSome : ∀ (k : Nat) (fs : List FileNode) (ds : List DirNode) (i : Nat),
    (phase1Go fs ds i k).isSome = true ↔
      (∀ m, i ≤ m → m < i + k → dircond (ds.getD m {}) = true →
        (ds.getD m {}).node.data < fs.length) := by
  intro k
  induction k with
  | zero =>
    intro fs ds i
    simp only [phase1Go, Option.isSome_some, true_iff]
    intro m h1 h2
    omega
  | succ k ih =>
    intro fs ds i
    by_cases hc : dircond (ds.getD i {}) = true
    · by_cases hd : (ds.getD i {}).node.data < fs.length
      · rw [show phase1Go fs ds i (k + 1) =
            phase1Go
              (if (ds.getD i {}).node.hash = (fs.getD (ds.getD i {}).node.data {}).node.hash
                then fs.set (ds.getD i {}).node.data
                  { fs.getD (ds.getD i {}).node.data {} with dir := some i } else fs)
              (ds.set i { ds.getD i {} with folder := some (ds.getD i {}).node.data })
              (i + 1) k by
          simp only [phase1Go]
          rw [if_pos hc, if_pos hd]]
        rw [ih]
        have hlen : (if (ds.getD i {}).node.hash = (fs.getD (ds.getD i {}).node.data {}).node.hash
            then fs.set (ds.getD i {}).node.data
              { fs.getD (ds.getD i {}).node.data {} with dir := some i } else fs).length
            = fs.length := by
          split
          · exact List.length_set fs _ _
          · rfl
        constructor
        · intro H m h1 h2 hcm
          by_cases hmi : m = i
          · subst hmi
            exact hd
          · have hx := H m (by omega) (by omega)
            rw [getD_set_ne _ _ (fun he => hmi he.symm)] at hx
            rw [hlen] at hx
            exact hx hcm
        · intro H m h1 h2 hcm
          rw [getD_set_ne _ _ (by omega)] at hcm ⊢
          rw [hlen]
          exact H m (by omega) (by omega) hcm
      · simp only [phase1Go]
        rw [if_pos hc, if_neg hd]
        simp only [Option.isSome_none, Bool.false_eq_true, false_iff]
        intro H
        exact hd (H i (Nat.le_refl i) (by omega) hc)
    · rw [show phase1Go fs ds i (k + 1) = phase1Go fs ds (i + 1) k by
        simp only [phase1Go]
        rw [if_neg hc]]
      rw [ih]
      constructor
      · intro H m h1 h2 hcm
        by_cases hmi : m = i
        · subst hmi
          exact absurd hcm hc
        · exact H m (by omega) (by omega) hcm
      · intro H m h1 h2 hcm
        exact H m (by omega) (by omega) hcm

/-- Entry records after the first linker loop: entries in the window with the
FOLDER condition have their `folder` link set to their `data`; everything else
is untouched. -/
lemma phase1Go_dirs : ∀ (k : Nat) (fs : List FileNode) (ds : List DirNode) (i : Nat)
    (fs2 : List FileNode) (ds2 : List DirNode), phase1Go fs ds i k = some (fs2, ds2) →
    ds2.length = ds.length ∧
    ∀ m, ds2.getD m {} =
      if i ≤ m ∧ m < i + k ∧ dircond (ds.getD m {}) = true then
        { ds.getD m {} with folder := some (ds.getD m {}).node.data }
      else ds.getD m {} := by
  intro k
  induction k with
  | zero =>
    intro fs ds i fs2 ds2 h
    simp only [phase1Go, Option.some_inj] at h
    cases h
    refine ⟨rfl, ?_⟩
    intro m
    rw [if_neg (by omega)]
  | succ k ih =>
    intro fs ds i fs2 ds2 h
    by_cases hc : dircond (ds.getD i {}) = true
    · by_cases hd : (ds.getD i {}).node.data < fs.length
      · rw [show phase1Go fs ds i (k + 1) =
            phase1Go
              (if (ds.getD i {}).node.hash = (fs.getD (ds.getD i {}).node.data {}).node.hash
                then fs.set (ds.getD i {}).node.data
                  { fs.getD (ds.getD i {}).node.data {} with dir := some i } else fs)
              (ds.set i { ds.getD i {} with folder := some (ds.getD i {}).node.data })
              (i + 1) k by
          simp only [phase1Go]
          rw [if_pos hc, if_pos hd]] at h
        obtain ⟨hlen, hch⟩ := ih _ _ _ _ _ h
        have hi : i < ds.length := by
          by_contra hge
          rw [getD_of_le _ (by omega)] at hc
          exact absurd hc (by decide)
        constructor
        · rw [hlen, List.length_set]
        · intro m
          have hm := hch m
          by_cases hmi : m = i
          · subst hmi
            rw [if_neg (by omega)] at hm
            rw [hm, getD_set_self _ _ hi, if_pos ⟨Nat.le_refl m, by omega, hc⟩]
          · rw [getD_set_ne _ _ (fun he => hmi he.symm)] at hm
            by_cases hw : i + 1 ≤ m ∧ m < i + 1 + k ∧ dircond (ds.getD m {}) = true
            · rw [if_pos hw] at hm
              rw [hm, if_pos ⟨by omega, by omega, hw.2.2⟩]
            · rw [if_neg hw] at hm
              rw [hm, if_neg (by
                intro hx
                exact hw ⟨by omega, by omega, hx.2.2⟩)]
      · simp only [phase1Go] at h
        rw [if_pos hc, if_neg hd] at h
        exact Option.noConfusion h
    · rw [show phase1Go fs ds i (k + 1) = phase1Go fs ds (i + 1) k by
        simp only [phase1Go]
        rw [if_neg hc]] at h
      obtain ⟨hlen, hch⟩ := ih _ _ _ _ _ h
      refine ⟨hlen, ?_⟩
      intro m
      have hm := hch m
      by_cases hmi : m = i
      · subst hmi
        rw [if_neg (by omega)] at hm
        rw [hm, if_neg (by intro hx; exact hc hx.2.2)]
      · by_cases hw : i + 1 ≤ m ∧ m < i + 1 + k ∧ dircond (ds.getD m {}) = true
        · rw [if_pos hw] at hm
          rw [hm, if_pos ⟨by omega, by omega, hw.2.2⟩]
        · rw [if_neg hw] at hm
          rw [hm, if_neg (by
            intro hx
            exact hw ⟨by omega, by omega, hx.2.2⟩)]

/-- `lastMatchIn` only inspects the node and attribute fields of the entries
in its window. -/
lemma lastMatchIn_congr : ∀ (k : Nat) (ds1 ds2 : List DirNode) (j h i : Nat),
    (∀ m, i ≤ m → m < i + k →
      (ds1.getD m {}).node = (ds2.getD m {}).node ∧ (ds1.getD m {}).attr = (ds2.getD m {}).attr) →
    lastMatchIn ds1 j h i k = lastMatchIn ds2 j h i k := by
  intro k
  induction k with
  | zero => intro ds1 ds2 j h i hco; rfl
  | succ k ih =>
    intro ds1 ds2 j h i hco
    simp only [lastMatchIn]
    rw [ih ds1 ds2 j h (i + 1) (fun m h1 h2 => hco m (by omega) (by omega))]
    have hmi : matchAt ds1 j h i = matchAt ds2 j h i := by
      obtain ⟨hn, ha⟩ := hco i (Nat.le_refl i) (by omega)
      unfold matchAt dircond
      rw [hn, ha]
    rw [hmi]

/-- Collapsing consecutive `dir`-field updates. -/
lemma overwrite_dir (x : FileNode) (a b : Option Nat) :
    ({ { x with dir := a } with dir := b } : FileNode) = { x with dir := b } := rfl

/-- Folder records after the first linker loop: each folder's back-link is set
by the last hash-matching FOLDER entry of the window referring to it, and is
otherwise untouched; no other folder field changes. -/
lemma phase1Go_folders : ∀ (k : Nat) (fs : List FileNode) (ds : List DirNode) (i : Nat)
    (fs2 : List FileNode) (ds2 : List DirNode), phase1Go fs ds i k = some (fs2, ds2) →
    fs2.length = fs.length ∧
    ∀ j, fs2.getD j {} =
      match lastMatchIn ds j ((fs.getD j {}).node.hash) i k with
      | some m => { fs.getD j {} with dir := some m }
      | none => fs.getD j {} := by
  intro k
  induction k with
  | zero =>
    intro fs ds i fs2 ds2 h
    simp only [phase1Go, Option.some_inj] at h
    cases h
    exact ⟨rfl, fun j => rfl⟩
  | succ k ih =>
    intro fs ds i fs2 ds2 h
    by_cases hc : dircond (ds.getD i {}) = true
    · by_cases hd : (ds.getD i {}).node.data < fs.length
      · rw [show phase1Go fs ds i (k + 1) =
            phase1Go
              (if (ds.getD i {}).node.hash = (fs.getD (ds.getD i {}).node.data {}).node.hash
                then fs.set (ds.getD i {}).node.data
                  { fs.getD (ds.getD i {}).node.data {} with dir := some i } else fs)
              (ds.set i { ds.getD i {} with folder := some (ds.getD i {}).node.data })
              (i + 1) k by
          simp only [phase1Go]
          rw [if_pos hc, if_pos hd]] at h
        obtain ⟨hlen, hch⟩ := ih _ _ _ _ _ h
        have hlen1 : (if (ds.getD i {}).node.hash = (fs.getD (ds.getD i {}).node.data {}).node.hash
            then fs.set (ds.getD i {}).node.data
              { fs.getD (ds.getD i {}).node.data {} with dir := some i } else fs).length
            = fs.length := by
          split
          · exact List.length_set fs _ _
          · rfl
        have hf1 : ∀ j,
            (if (ds.getD i {}).node.hash = (fs.getD (ds.getD i {}).node.data {}).node.hash
              then fs.set (ds.getD i {}).node.data
                { fs.getD (ds.getD i {}).node.data {} with dir := some i } else fs).getD j {}
              = fs.getD j {} ∨
            (if (ds.getD i {}).node.hash = (fs.getD (ds.getD i {}).node.data {}).node.hash
              then fs.set (ds.getD i {}).node.data
                { fs.getD (ds.getD i {}).node.data {} with dir := some i } else fs).getD j {}
              = { fs.getD j {} with dir := some i } := by
          intro j
          split
          · by_cases hj : (ds.getD i {}).node.data = j
            · right
              subst hj
              rw [getD_set_self _ _ hd]
            · left
              rw [getD_set_ne _ _ hj]
          · left
            rfl
        refine ⟨hlen.trans hlen1, ?_⟩
        intro j
        have hch2 := hch j
        rw [lastMatchIn_congr k _ ds j _ (i + 1)
          (fun m h1 h2 => by rw [getD_set_ne _ _ (by omega : i ≠ m)]; exact ⟨rfl, rfl⟩)] at hch2
        have hhash : ((if (ds.getD i {}).node.hash = (fs.getD (ds.getD i {}).node.data {}).node.hash
            then fs.set (ds.getD i {}).node.data
              { fs.getD (ds.getD i {}).node.data {} with dir := some i } else fs).getD j {}).node.hash
            = ((fs.getD j {}).node.hash) := by
          rcases hf1 j with he | he <;> rw [he]
        rw [hhash] at hch2
        simp only [lastMatchIn]
        cases hrec : lastMatchIn ds j ((fs.getD j {}).node.hash) (i + 1) k with
        | some r =>
          rw [hrec] at hch2
          rcases hf1 j with he | he <;> rw [he] at hch2 <;> exact hch2
        | none =>
          rw [hrec] at hch2
          by_cases hmA : matchAt ds j ((fs.getD j {}).node.hash) i = true
          · rw [if_pos hmA]
            simp only [matchAt, Bool.and_eq_true, beq_iff_eq] at hmA
            obtain ⟨⟨hcc, hdataj⟩, hhashj⟩ := hmA
            rw [hch2]
            have hcond : (ds.getD i {}).node.hash
                = (fs.getD (ds.getD i {}).node.data {}).node.hash := by
              rw [hdataj, hhashj]
            rw [if_pos hcond, hdataj]
            rw [hdataj] at hd
            rw [getD_set_self _ _ hd]
          · rw [if_neg hmA]
            rw [hch2]
            by_cases hcond : (ds.getD i {}).node.hash
                = (fs.getD (ds.getD i {}).node.data {}).node.hash
            · rw [if_pos hcond]
              have hj : (ds.getD i {}).node.data ≠ j := by
                intro hdataj
                apply hmA
                simp only [matchAt, Bool.and_eq_true, beq_iff_eq]
                refine ⟨⟨hc, hdataj⟩, ?_⟩
                rw [← hdataj]
                exact hcond
              rw [getD_set_ne _ _ hj]
            · rw [if_neg hcond]
      · simp only [phase1Go] at h
        rw [if_pos hc, if_neg hd] at h
        exact Option.noConfusion h
    · rw [show phase1Go fs ds i (k + 1) = phase1Go fs ds (i + 1) k by
        simp only [phase1Go]
        rw [if_neg hc]] at h
      obtain ⟨hlen, hch⟩ := ih _ _ _ _ _ h
      refine ⟨hlen, ?_⟩
      intro j
      have hch2 := hch j
      have hcf : dircond (ds.getD i {}) = false := eq_false_of_ne_true hc
      have hmA : matchAt ds j ((fs.getD j {}).node.hash) i = false := by
        unfold matchAt
        rw [hcf]
        rfl
      simp only [lastMatchIn]
      cases hrec : lastMatchIn ds j ((fs.getD j {}).node.hash) (i + 1) k with
      | some r =>
        rw [hrec] at hch2
        exact hch2
      | none =>
        rw [hrec] at hch2
        rw [if_neg (by rw [hmA]; exact Bool.false_ne_true)]
        exact hch2

/-- The inner parent-assignment loop succeeds exactly when its index window
stays in bounds (or is empty). -/
lemma phase2Inner_isSome : ∀ (k : Nat) (ds : List DirNode) (j y : Nat),
    (phase2Inner ds j y k).isSome = true ↔ (k = 0 ∨ y + k ≤ ds.length) := by
  intro k
  induction k with
  | zero =>
    intro ds j y
    simp [phase2Inner]
  | succ k ih =>
    intro ds j y
    by_cases hy : y < ds.length
    · rw [show phase2Inner ds j y (k + 1) =
          phase2Inner (ds.set y { ds.getD y {} with parent := some j }) j (y + 1) k by
        simp only [phase2Inner]
        rw [if_pos hy]]
      rw [ih, List.length_set]
      constructor
      · intro hx
        omega
      · intro hx
        omega
    · rw [show phase2Inner ds j y (k + 1) = none by
        simp only [phase2Inner]
        rw [if_neg hy]]
      simp only [Option.isSome_none, Bool.false_eq_true, false_iff]
      intro hx
      omega

/-- Entry records after the inner parent-assignment loop. -/
lemma phase2Inner_some : ∀ (k : Nat) (ds : List DirNode) (j y : Nat) (ds2 : List DirNode),
    phase2Inner ds j y k = some ds2 →
    ds2.length = ds.length ∧
    ∀ m, ds2.getD m {} =
      if y ≤ m ∧ m < y + k then { ds.getD m {} with parent := some j } else ds.getD m {} := by
  intro k
  induction k with
  | zero =>
    intro ds j y ds2 h
    simp only [phase2Inner, Option.some_inj] at h
    cases h
    exact ⟨rfl, fun m => by rw [if_neg (by omega)]⟩
  | succ k ih =>
    intro ds j y ds2 h
    by_cases hy : y < ds.length
    · rw [show phase2Inner ds j y (k + 1) =
          phase2Inner (ds.set y { ds.getD y {} with parent := some j }) j (y + 1) k by
        simp only [phase2Inner]
        rw [if_pos hy]] at h
      obtain ⟨hlen, hch⟩ := ih _ _ _ _ h
      constructor
      · rw [hlen, List.length_set]
      · intro m
        have hm := hch m
        by_cases hmy : m = y
        · subst hmy
          rw [if_neg (by omega)] at hm
          rw [hm, getD_set_self _ _ hy, if_pos ⟨Nat.le_refl m, by omega⟩]
        · rw [getD_set_ne _ _ (fun he => hmy he.symm)] at hm
          by_cases hw : y + 1 ≤ m ∧ m < y + 1 + k
          · rw [if_pos hw] at hm
            rw [hm, if_pos (by omega)]
          · rw [if_neg hw] at hm
            rw [hm, if_neg (by omega)]
    · rw [show phase2Inner ds j y (k + 1) = none by
        simp only [phase2Inner]
        rw [if_neg hy]] at h
      exact Option.noConfusion h

/-- `lastOwner` only inspects the node fields of the folders in its window. -/
lemma lastOwner_congr : ∀ (k : Nat) (fs1 fs2 : List FileNode) (j m : Nat),
    (∀ q, j ≤ q → q < j + k → (fs1.getD q {}).node = (fs2.getD q {}).node) →
    lastOwner fs1 j k m = lastOwner fs2 j k m := by
  intro k
  induction k with
  | zero => intro fs1 fs2 j m hco; rfl
  | succ k ih =>
    intro fs1 fs2 j m hco
    simp only [lastOwner]
    rw [ih fs1 fs2 (j + 1) m (fun q h1 h2 => hco q (by omega) (by omega))]
    have hic : inChild (fs1.getD j {}) m = inChild (fs2.getD j {}) m := by
      unfold inChild
      rw [hco j (Nat.le_refl j) (by omega)]
    rw [hic]

/-- The second linker loop succeeds on the window `[j, j + k)` exactly when
every folder's (wrapped) child range there is empty or in bounds. -/
lemma phase2Go_isSome : ∀ (k : Nat) (fs : List FileNode) (ds : List DirNode) (j : Nat),
    (phase2Go fs ds j k).isSome = true ↔
      ∀ q, j ≤ q → q < j + k → rangeOk (fs.getD q {}) ds.length := by
  intro k
  induction k with
  | zero =>
    intro fs ds j
    simp only [phase2Go, Option.isSome_some, true_iff]
    intro q h1 h2
    omega
  | succ k ih =>
    intro fs ds j
    cases hinner : phase2Inner ds j (fs.getD j {}).node.firstfileoff
        (((fs.getD j {}).node.firstfileoff + (fs.getD j {}).node.filecount) % 2 ^ 32
          - (fs.getD j {}).node.firstfileoff) with
    | none =>
      rw [show phase2Go fs ds j (k + 1) = none by
        simp only [phase2Go]
        rw [hinner]]
      simp only [Option.isSome_none, Bool.false_eq_true, false_iff]
      intro H
      have hro := H j (Nat.le_refl j) (by omega)
      have hiff := phase2Inner_isSome
        (((fs.getD j {}).node.firstfileoff + (fs.getD j {}).node.filecount) % 2 ^ 32
          - (fs.getD j {}).node.firstfileoff) ds j (fs.getD j {}).node.firstfileoff
      rw [hinner] at hiff
      simp only [Option.isSome_none, Bool.false_eq_true, false_iff] at hiff
      apply hiff
      unfold rangeOk at hro
      omega
    | some ds1 =>
      rw [show phase2Go fs ds j (k + 1) = phase2Go fs ds1 (j + 1) k by
        simp only [phase2Go]
        rw [hinner]]
      rw [ih]
      obtain ⟨hlen, _⟩ := phase2Inner_some _ _ _ _ _ hinner
      have hroj : rangeOk (fs.getD j {}) ds.length := by
        have hiff := phase2Inner_isSome
          (((fs.getD j {}).node.firstfileoff + (fs.getD j {}).node.filecount) % 2 ^ 32
            - (fs.getD j {}).node.firstfileoff) ds j (fs.getD j {}).node.firstfileoff
        rw [hinner] at hiff
        simp only [Option.isSome_some, true_iff] at hiff
        unfold rangeOk
        omega
      constructor
      · intro H q h1 h2
        by_cases hqj : q = j
        · subst hqj
          exact hroj
        · have hx := H q (by omega) (by omega)
          rwa [hlen] at hx
      · intro H q h1 h2
        rw [hlen]
        exact H q (by omega) (by omega)

/-- Entry records after the second linker loop: each entry's `parent` link is
set by the last folder of the window whose child range contains it, and is
otherwise untouched. -/
lemma phase2Go_some : ∀ (k : Nat) (fs : List FileNode) (ds : List DirNode) (j : Nat)
    (ds2 : List DirNode), phase2Go fs ds j k = some ds2 →
    ds2.length = ds.length ∧
    ∀ m, ds2.getD m {} =
      match lastOwner fs j k m with
      | some q => { ds.getD m {} with parent := some q }
      | none => ds.getD m {} := by
  intro k
  induction k with
  | zero =>
    intro fs ds j ds2 h
    simp only [phase2Go, Option.some_inj] at h
    cases h
    exact ⟨rfl, fun m => rfl⟩
  | succ k ih =>
    intro fs ds j ds2 h
    cases hinner : phase2Inner ds j (fs.getD j {}).node.firstfileoff
        (((fs.getD j {}).node.firstfileoff + (fs.getD j {}).node.filecount) % 2 ^ 32
          - (fs.getD j {}).node.firstfileoff) with
    | none =>
      rw [show phase2Go fs ds j (k + 1) = none by
        simp only [phase2Go]
        rw [hinner]] at h
      exact Option.noConfusion h
    | some ds1 =>
      rw [show phase2Go fs ds j (k + 1) = phase2Go fs ds1 (j + 1) k by
        simp only [phase2Go]
        rw [hinner]] at h
      obtain ⟨hlen2, hch2⟩ := ih _ _ _ _ h
      obtain ⟨hlen1, hch1⟩ := phase2Inner_some _ _ _ _ _ hinner
      refine ⟨hlen2.trans hlen1, ?_⟩
      intro m
      have hm2 := hch2 m
      have hm1 := hch1 m
      have hcond : ((fs.getD j {}).node.firstfileoff ≤ m ∧
          m < (fs.getD j {}).node.firstfileoff +
            (((fs.getD j {}).node.firstfileoff + (fs.getD j {}).node.filecount) % 2 ^ 32
              - (fs.getD j {}).node.firstfileoff))
          ↔ inChild (fs.getD j {}) m = true := by
        unfold inChild
        simp only [Bool.and_eq_true, decide_eq_true_eq]
        omega
      simp only [lastOwner]
      cases hrec : lastOwner fs (j + 1) k m with
      | some q =>
        rw [hrec] at hm2
        rw [hm2, hm1]
        by_cases hin : inChild (fs.getD j {}) m = true
        · rw [if_pos (hcond.mpr hin)]
        · rw [if_neg (fun hx => hin (hcond.mp hx))]
      | none =>
        rw [hrec] at hm2
        rw [hm2, hm1]
        by_cases hin : inChild (fs.getD j {}) m = true
        · rw [if_pos (hcond.mpr hin), if_pos hin]
        · rw [if_neg (fun hx => hin (hcond.mp hx)), if_neg hin]

/-- Folder node fields are unchanged by the first linker loop. -/
lemma phase1Go_folders_node (k : Nat) (fs : List FileNode) (ds : List DirNode) (i : Nat)
    (fs2 : List FileNode) (ds2 : List DirNode) (h : phase1Go fs ds i k = some (fs2, ds2)) :
    ∀ j, (fs2.getD j {}).node = (fs.getD j {}).node := by
  obtain ⟨_, hch⟩ := phase1Go_folders k fs ds i fs2 ds2 h
  intro j
  rw [hch j]
  cases hrec : lastMatchIn ds j ((fs.getD j {}).node.hash) i k <;> rfl

/-- Entry node and attribute fields are unchanged by the first linker loop. -/
lemma phase1Go_dirs_node (k : Nat) (fs : List FileNode) (ds : List DirNode) (i : Nat)
    (fs2 : List FileNode) (ds2 : List DirNode) (h : phase1Go fs ds i k = some (fs2, ds2)) :
    ∀ m, (ds2.getD m {}).node = (ds.getD m {}).node ∧ (ds2.getD m {}).attr = (ds.getD m {}).attr := by
  obtain ⟨_, hch⟩ := phase1Go_dirs k fs ds i fs2 ds2 h
  intro m
  rw [hch m]
  by_cases hx : i ≤ m ∧ m < i + k ∧ dircond (ds.getD m {}) = true
  · rw [if_pos hx]
    exact ⟨rfl, rfl⟩
  · rw [if_neg hx]
    exact ⟨rfl, rfl⟩

/-- Entry node, attribute and folder-link fields are unchanged by the second
linker loop. -/
lemma phase2Go_dirs_node (k : Nat) (fs : List FileNode) (ds : List DirNode) (j : Nat)
    (ds2 : List DirNode) (h : phase2Go fs ds j k = some ds2) :
    ∀ m, (ds2.getD m {}).node = (ds.getD m {}).node ∧ (ds2.getD m {}).attr = (ds.getD m {}).attr ∧
      (ds2.getD m {}).folder = (ds.getD m {}).folder := by
  obtain ⟨_, hch⟩ := phase2Go_some k fs ds j ds2 h
  intro m
  rw [hch m]
  cases hrec : lastOwner fs j k m <;> exact ⟨rfl, rfl, rfl⟩

lemma rangeOk_congr {f g : FileNode} (h : f.node = g.node) (n : Nat) :
    rangeOk f n ↔ rangeOk g n := by
  unfold rangeOk
  rw [h]

/-- `RARC::sortparents` is total exactly when both loops' indexing conditions
hold on the input tables. -/
lemma sortparents_isSome_iff (s : RARC) :
    (sortparents s).isSome = true ↔ (phase1Ok s ∧ phase2Ok s) := by
  unfold sortparents
  split
  next h1 =>
    simp only [Option.isSome_none, Bool.false_eq_true, false_iff]
    intro hcon
    have hiff := phase1Go_isSome s.dirs.length s.folders s.dirs 0
    rw [h1] at hiff
    simp only [Option.isSome_none, Bool.false_eq_true, false_iff] at hiff
    apply hiff
    intro m hm1 hm2 hc
    exact hcon.1 m (by omega) hc
  next fs ds h1 =>
    have hfl := phase1Go_folders_node s.dirs.length s.folders s.dirs 0 fs ds h1
    have hflen : fs.length = s.folders.length := (phase1Go_folders _ _ _ _ _ _ h1).1
    have hdlen : ds.length = s.dirs.length := (phase1Go_dirs _ _ _ _ _ _ h1).1
    split
    next h2 =>
      simp only [Option.isSome_none, Bool.false_eq_true, false_iff]
      intro hcon
      have hiff := phase2Go_isSome fs.length fs ds 0
      rw [h2] at hiff
      simp only [Option.isSome_none, Bool.false_eq_true, false_iff] at hiff
      apply hiff
      intro q hq1 hq2
      have hq3 : q < s.folders.length := by omega
      have hro := hcon.2 q hq3
      rw [← hdlen] at hro
      exact (rangeOk_congr (hfl q) ds.length).mpr hro
    next ds1 h2 =>
      simp only [Option.isSome_some, true_iff]
      constructor
      · have hiff := phase1Go_isSome s.dirs.length s.folders s.dirs 0
        rw [h1] at hiff
        simp only [Option.isSome_some, true_iff] at hiff
        intro m hm hc
        exact hiff m (Nat.zero_le m) (by omega) hc
      · have hiff := phase2Go_isSome fs.length fs ds 0
        rw [h2] at hiff
        simp only [Option.isSome_some, true_iff] at hiff
        intro q hq
        have hro := hiff q (Nat.zero_le q) (by omega)
        rw [hdlen] at hro
        exact (rangeOk_congr (hfl q) s.dirs.length).mp hro

/-- Full characterization of a successful `sortparents` run: scalar fields are
untouched; every folder's back-link is (re)set by the last hash-matching
FOLDER entry referring to it; every FOLDER entry with non-sentinel `data` gets
its folder link; every entry in some folder's child range gets the last such
folder as parent. -/
lemma sortparents_char (s t : RARC) (h : sortparents s = some t) :
    t.folders.length = s.folders.length ∧ t.dirs.length = s.dirs.length ∧
    t.header = s.header ∧ t.dataheader = s.dataheader ∧ t.nextidx = s.nextidx ∧
    t.sync = s.sync ∧ t.endian = s.endian ∧
    (∀ j, t.folders.getD j {} =
      match lastMatchIn s.dirs j ((s.folders.getD j {}).node.hash) 0 s.dirs.length with
      | some m => { s.folders.getD j {} with dir := some m }
      | none => s.folders.getD j {}) ∧
    (∀ m, t.dirs.getD m {} =
      match lastOwner s.folders 0 s.folders.length m with
      | some q => { (if m < s.dirs.length ∧ dircond (s.dirs.getD m {}) = true then
            { s.dirs.getD m {} with folder := some (s.dirs.getD m {}).node.data }
            else s.dirs.getD m {}) with parent := some q }
      | none => if m < s.dirs.length ∧ dircond (s.dirs.getD m {}) = true then
            { s.dirs.getD m {} with folder := some (s.dirs.getD m {}).node.data }
            else s.dirs.getD m {}) := by
  unfold sortparents at h
  split at h
  next => exact Option.noConfusion h
  next fs ds h1 =>
    split at h
    next => exact Option.noConfusion h
    next ds1 h2 =>
      simp only [Option.some_inj] at h
      subst h
      obtain ⟨hflen, hfch⟩ := phase1Go_folders _ _ _ _ _ _ h1
      obtain ⟨hdlen1, hdch⟩ := phase1Go_dirs _ _ _ _ _ _ h1
      obtain ⟨hdlen2, hpch⟩ := phase2Go_some _ _ _ _ _ h2
      refine ⟨hflen, hdlen2.trans hdlen1, rfl, rfl, rfl, rfl, rfl, ?_, ?_⟩
      · intro j
        exact hfch j
      · intro m
        have hp := hpch m
        rw [show lastOwner fs 0 fs.length m = lastOwner s.folders 0 s.folders.length m by
          rw [hflen]
          exact lastOwner_congr s.folders.length fs s.folders 0 m
            (fun q hq1 hq2 => phase1Go_folders_node _ _ _ _ _ _ h1 q)] at hp
        have hd := hdch m
        have hd2 : ds.getD m {} =
            if m < s.dirs.length ∧ dircond (s.dirs.getD m {}) = true then
              { s.dirs.getD m {} with folder := some (s.dirs.getD m {}).node.data }
            else s.dirs.getD m {} := by
          rw [hd]
          by_cases hx : m < s.dirs.length ∧ dircond (s.dirs.getD m {}) = true
          · rw [if_pos ⟨Nat.zero_le m, by omega, hx.2⟩, if_pos hx]
          · rw [if_neg (fun hy => hx ⟨by omega, hy.2.2⟩), if_neg hx]
        rw [hd2] at hp
        exact hp

lemma lastMatchIn_some_spec : ∀ (k : Nat) (ds : List DirNode) (j h i m : Nat),
    lastMatchIn ds j h i k = some m →
    i ≤ m ∧ m < i + k ∧ matchAt ds j h m = true := by
  intro k
  induction k with
  | zero =>
    intro ds j h i m hx
    exact Option.noConfusion hx
  | succ k ih =>
    intro ds j h i m hx
    simp only [lastMatchIn] at hx
    cases hrec : lastMatchIn ds j h (i + 1) k with
    | some r =>
      rw [hrec] at hx
      cases hx
      have hs := ih _ _ _ _ _ hrec
      exact ⟨by omega, by omega, hs.2.2⟩
    | none =>
      rw [hrec] at hx
      by_cases hmA : matchAt ds j h i = true
      · rw [if_pos hmA] at hx
        cases hx
        exact ⟨Nat.le_refl _, by omega, hmA⟩
      · rw [if_neg hmA] at hx
        exact Option.noConfusion hx

lemma lastMatchIn_eq_some : ∀ (k : Nat) (ds : List DirNode) (j h i m : Nat),
    i ≤ m → m < i + k → matchAt ds j h m = true →
    (∀ m2, m < m2 → m2 < i + k → matchAt ds j h m2 = false) →
    lastMatchIn ds j h i k = some m := by
  intro k
  induction k with
  | zero =>
    intro ds j h i m h1 h2 hm hlast
    omega
  | succ k ih =>
    intro ds j h i m h1 h2 hm hlast
    simp only [lastMatchIn]
    by_cases hmi : m = i
    · subst hmi
      have hnone : lastMatchIn ds j h (m + 1) k = none := by
        cases hrec : lastMatchIn ds j h (m + 1) k with
        | none => rfl
        | some r =>
          have hsp := lastMatchIn_some_spec _ _ _ _ _ _ hrec
          have hcontra := hlast r (by omega) (by omega)
          rw [hcontra] at hsp
          exact absurd hsp.2.2 (by simp)
      rw [hnone, if_pos hm]
    · have hsome : lastMatchIn ds j h (i + 1) k = some m :=
        ih _ _ _ _ _ (by omega) (by omega) hm (fun m2 ha hb => hlast m2 ha (by omega))
      rw [hsome]

/-- C10, amended: the Tree Linker is total (panic-free) if and only if every
FOLDER-attributed entry's non-sentinel `data` is below the folder-table
length, and every folder's child range — whose upper bound
`firstEntryIndex + entryCount` is computed in wrapping `u32` arithmetic — is
either empty after the wrap (`end ≤ start`) or lies within entry-table
bounds. -/
theorem C10_linker_totality_amended (s : RARC) :
    (sortparents s).isSome = true ↔
      ((∀ m, m < s.dirs.length → attrContains (s.dirs.getD m {}).attr FOLDER = true →
          (s.dirs.getD m {}).node.data ≠ UMAX →
          (s.dirs.getD m {}).node.data < s.folders.length) ∧
        (∀ q, q < s.folders.length →
          ((s.folders.getD q {}).node.firstfileoff + (s.folders.getD q {}).node.filecount) % 2 ^ 32
              ≤ (s.folders.getD q {}).node.firstfileoff ∨
            ((s.folders.getD q {}).node.firstfileoff + (s.folders.getD q {}).node.filecount) % 2 ^ 32
              ≤ s.dirs.length)) := by
  rw [sortparents_isSome_iff s]
  constructor
  · intro hx
    constructor
    · intro m hm ha hd
      apply hx.1 m hm
      unfold dircond
      rw [ha]
      simp only [Bool.true_and, bne_iff_ne, ne_eq]
      exact hd
    · exact hx.2
  · intro hx
    constructor
    · intro m hm hc
      unfold dircond at hc
      simp only [Bool.and_eq_true, bne_iff_ne] at hc
      exact hx.1 m hm hc.1 hc.2
    · exact hx.2

/-- C10, witness: the amended totality criterion evaluated at the wrapped
counterexample state. -/
theorem C10_linker_totality_amended_witness :
    (sortparents cexC10state).isSome = true ↔
      ((∀ m, m < cexC10state.dirs.length →
          attrContains (cexC10state.dirs.getD m {}).attr FOLDER = true →
          (cexC10state.dirs.getD m {}).node.data ≠ UMAX →
          (cexC10state.dirs.getD m {}).node.data < cexC10state.folders.length) ∧
        (∀ q, q < cexC10state.folders.length →
          ((cexC10state.folders.getD q {}).node.firstfileoff +
              (cexC10state.folders.getD q {}).node.filecount) % 2 ^ 32
              ≤ (cexC10state.folders.getD q {}).node.firstfileoff ∨
            ((cexC10state.folders.getD q {}).node.firstfileoff +
              (cexC10state.folders.getD q {}).node.filecount) % 2 ^ 32
              ≤ cexC10state.dirs.length)) :=
  C10_linker_totality_amended cexC10state

/-- C5, amended: after the Tree Linker runs on tables whose folder back-links
start unset, (1) every FOLDER entry with non-sentinel `data` has its
`linkedFolder` set to folder-table index `data`; (2) a folder's `linkedEntry`
points only at a hash-matching FOLDER entry referring to it — so
`linkedEntry = e` still implies the hashes agree; but (3) hash agreement alone
only guarantees the back-link for the LAST such matching entry (later matches
overwrite earlier ones, refuting the unrestricted "if and only if"). -/
theorem C5_linker_links_amended (s t : RARC) (hrun : sortparents s = some t)
    (hinit : ∀ f ∈ s.folders, f.dir = none) :
    (∀ m, m < s.dirs.length → dircond (s.dirs.getD m {}) = true →
      (t.dirs.getD m {}).folder = some (s.dirs.getD m {}).node.data) ∧
    (∀ j i, (t.folders.getD j {}).dir = some i →
      i < s.dirs.length ∧ matchAt s.dirs j ((s.folders.getD j {}).node.hash) i = true) ∧
    (∀ j i, i < s.dirs.length →
      matchAt s.dirs j ((s.folders.getD j {}).node.hash) i = true →
      (∀ i2, i < i2 → i2 < s.dirs.length →
        matchAt s.dirs j ((s.folders.getD j {}).node.hash) i2 = false) →
      (t.folders.getD j {}).dir = some i) := by
  obtain ⟨hflen, hdlen, _, _, _, _, _, hfch, hdch⟩ := sortparents_char s t hrun
  refine ⟨?_, ?_, ?_⟩
  · intro m hm hc
    rw [hdch m]
    cases hrec : lastOwner s.folders 0 s.folders.length m <;>
      simp only [hrec] <;> rw [if_pos ⟨hm, hc⟩]
  · intro j i hdir
    rw [hfch j] at hdir
    cases hrec : lastMatchIn s.dirs j ((s.folders.getD j {}).node.hash) 0 s.dirs.length with
    | some m =>
      rw [hrec] at hdir
      have hinj : some m = some i := hdir
      cases hinj
      have hsp := lastMatchIn_some_spec _ _ _ _ _ _ hrec
      exact ⟨by omega, hsp.2.2⟩
    | none =>
      rw [hrec] at hdir
      by_cases hj : j < s.folders.length
      · have hmem : s.folders.getD j {} ∈ s.folders := by
          rw [List.getD_eq_getElem _ _ hj]
          exact List.getElem_mem hj
        rw [hinit _ hmem] at hdir
        exact Option.noConfusion hdir
      · rw [getD_of_le _ (by omega)] at hdir
        exact Option.noConfusion hdir
  · intro j i hilt hmA hlast
    rw [hfch j]
    rw [lastMatchIn_eq_some s.dirs.length s.dirs j ((s.folders.getD j {}).node.hash) 0 i
      (Nat.zero_le i) (by omega) hmA (fun m2 ha hb => hlast m2 ha (by omega))]

/-- C5, witness for the amended theorem: the empty archive links to itself and
satisfies all three conclusions vacuously or trivially. -/
theorem C5_linker_links_amended_witness :
    (∀ m, m < ({} : RARC).dirs.length → dircond (({} : RARC).dirs.getD m {}) = true →
      ((({} : RARC)).dirs.getD m {}).folder = some ((({} : RARC)).dirs.getD m {}).node.data) ∧
    (∀ j i, ((({} : RARC)).folders.getD j {}).dir = some i →
      i < ({} : RARC).dirs.length ∧
        matchAt ({} : RARC).dirs j (((({} : RARC)).folders.getD j {}).node.hash) i = true) ∧
    (∀ j i, i < ({} : RARC).dirs.length →
      matchAt ({} : RARC).dirs j (((({} : RARC)).folders.getD j {}).node.hash) i = true →
      (∀ i2, i < i2 → i2 < ({} : RARC).dirs.length →
        matchAt ({} : RARC).dirs j (((({} : RARC)).folders.getD j {}).node.hash) i2 = false) →
      ((({} : RARC)).folders.getD j {}).dir = some i) :=
  C5_linker_links_amended {} {} (by decide) (by intro f hf; exact absurd hf (List.not_mem_nil f))

lemma RARC_ext {a b : RARC} (h1 : a.folders = b.folders) (h2 : a.dirs = b.dirs)
    (h3 : a.header = b.header) (h4 : a.dataheader = b.dataheader) (h5 : a.nextidx = b.nextidx)
    (h6 : a.sync = b.sync) (h7 : a.endian = b.endian) : a = b := by
  cases a
  cases b
  congr 1

/-- C7: the Tree Linker is idempotent — a second run on the tables produced by
a successful run reproduces exactly the same link state. -/
theorem C7_linker_idempotent (s t : RARC) (h : sortparents s = some t) :
    sortparents t = some t := by
  obtain ⟨hflen, hdlen, _, _, _, _, _, hfch, hdch⟩ := sortparents_char s t h
  have hOk : phase1Ok s ∧ phase2Ok s := by
    rw [← sortparents_isSome_iff, h]
    rfl
  have hdn : ∀ m, (t.dirs.getD m {}).node = (s.dirs.getD m {}).node ∧
      (t.dirs.getD m {}).attr = (s.dirs.getD m {}).attr := by
    intro m
    rw [hdch m]
    cases hrec : lastOwner s.folders 0 s.folders.length m with
    | none =>
      by_cases hx : m < s.dirs.length ∧ dircond (s.dirs.getD m {}) = true
      · rw [if_pos hx]
        exact ⟨rfl, rfl⟩
      · rw [if_neg hx]
        exact ⟨rfl, rfl⟩
    | some q =>
      by_cases hx : m < s.dirs.length ∧ dircond (s.dirs.getD m {}) = true
      · rw [if_pos hx]
        exact ⟨rfl, rfl⟩
      · rw [if_neg hx]
        exact ⟨rfl, rfl⟩
  have hfn : ∀ j, (t.folders.getD j {}).node = (s.folders.getD j {}).node := by
    intro j
    rw [hfch j]
    cases hrec : lastMatchIn s.dirs j ((s.folders.getD j {}).node.hash) 0 s.dirs.length <;> rfl
  have hdc : ∀ m, dircond (t.dirs.getD m {}) = dircond (s.dirs.getD m {}) := by
    intro m
    unfold dircond
    rw [(hdn m).1, (hdn m).2]
  have hOkT : phase1Ok t ∧ phase2Ok t := by
    constructor
    · intro m hm hc
      rw [hdlen] at hm
      rw [hflen, (hdn m).1]
      rw [hdc m] at hc
      exact hOk.1 m hm hc
    · intro q hq
      rw [hflen] at hq
      rw [rangeOk_congr (hfn q) t.dirs.length, hdlen]
      exact hOk.2 q hq
  have hsomeT : (sortparents t).isSome = true := (sortparents_isSome_iff t).mpr hOkT
  obtain ⟨t2, ht2⟩ := Option.isSome_iff_exists.mp hsomeT
  obtain ⟨c1, c2, c3, c4, c5, c6, c7, cf, cd⟩ := sortparents_char t t2 ht2
  have hlmEq : ∀ j hh, lastMatchIn t.dirs j hh 0 t.dirs.length = lastMatchIn s.dirs j hh 0 s.dirs.length := by
    intro j hh
    rw [hdlen]
    exact lastMatchIn_congr s.dirs.length t.dirs s.dirs j hh 0 (fun m h1 h2 => hdn m)
  have hloEq : ∀ m, lastOwner t.folders 0 t.folders.length m = lastOwner s.folders 0 s.folders.length m := by
    intro m
    rw [hflen]
    exact lastOwner_congr s.folders.length t.folders s.folders 0 m (fun q h1 h2 => hfn q)
  have hfolders : t2.folders = t.folders := by
    apply list_eq_of_getD {} (by rw [c1])
    intro j hj
    rw [cf j]
    rw [show (t.folders.getD j {}).node.hash = (s.folders.getD j {}).node.hash by rw [hfn j]]
    rw [hlmEq j ((s.folders.getD j {}).node.hash)]
    rw [hfch j]
    cases hrec : lastMatchIn s.dirs j ((s.folders.getD j {}).node.hash) 0 s.dirs.length <;> rfl
  have hdirs : t2.dirs = t.dirs := by
    apply list_eq_of_getD {} (by rw [c2])
    intro m hm
    rw [cd m]
    rw [hloEq m]
    rw [show (t.dirs.getD m {}).node.data = (s.dirs.getD m {}).node.data by rw [(hdn m).1]]
    have htval := hdch m
    cases hrec : lastOwner s.folders 0 s.folders.length m with
    | some q =>
      rw [hrec] at htval
      by_cases hx : m < s.dirs.length ∧ dircond (s.dirs.getD m {}) = true
      · have htcond : m < t.dirs.length ∧ dircond (t.dirs.getD m {}) = true :=
          ⟨by rw [hdlen]; exact hx.1, by rw [hdc m]; exact hx.2⟩
        rw [if_pos hx] at htval
        rw [if_pos htcond, htval]
      · have htcond : ¬(m < t.dirs.length ∧ dircond (t.dirs.getD m {}) = true) := by
          intro hy
          exact hx ⟨by rw [← hdlen]; exact hy.1, by rw [← hdc m]; exact hy.2⟩
        rw [if_neg hx] at htval
        rw [if_neg htcond, htval]
    | none =>
      rw [hrec] at htval
      by_cases hx : m < s.dirs.length ∧ dircond (s.dirs.getD m {}) = true
      · have htcond : m < t.dirs.length ∧ dircond (t.dirs.getD m {}) = true :=
          ⟨by rw [hdlen]; exact hx.1, by rw [hdc m]; exact hx.2⟩
        rw [if_pos hx] at htval
        rw [if_pos htcond, htval]
      · have htcond : ¬(m < t.dirs.length ∧ dircond (t.dirs.getD m {}) = true) := by
          intro hy
          exact hx ⟨by rw [← hdlen]; exact hy.1, by rw [← hdc m]; exact hy.2⟩
        rw [if_neg hx] at htval
        rw [if_neg htcond, htval]
  have heq : t2 = t := RARC_ext hfolders hdirs c3 c4 c5 c6 c7
  rw [ht2, heq]

/-- C7, witness: linking the empty archive once more reproduces it. -/
theorem C7_linker_idempotent_witness : sortparents {} = some {} :=
  C7_linker_idempotent {} {} (by decide)

/-- The entry loop completes whenever every FILE-attributed record's payload
region is within the buffer: the payload `read_exact` is its only panic
source. -/
lemma parseDirsGo_isSome (e : Endian) (buf : List Nat) (hdr : Header) (dh : DataHeader) :
    ∀ (k p : Nat), (∀ n ∈ dirNodesGo e buf p k, payloadOkN buf hdr n) →
    (parseDirsGo e buf hdr dh p k).isSome = true := by
  intro k
  induction k with
  | zero =>
    intro p hcond
    rfl
  | succ k ih =>
    intro p hcond
    rcases hread : readDirD e buf p with ⟨node, p1⟩
    have hmem : node ∈ dirNodesGo e buf p (k + 1) := by
      simp only [dirNodesGo, hread]
      exact List.mem_cons_self _ _
    have htail : ∀ n ∈ dirNodesGo e buf (p1 + 4) k, payloadOkN buf hdr n := by
      intro n hn
      apply hcond
      simp only [dirNodesGo, hread]
      exact List.mem_cons_of_mem _ hn
    have hok := hcond node hmem
    obtain ⟨rest, hr⟩ := Option.isSome_iff_exists.mp (ih (p1 + 4) htail)
    simp only [parseDirsGo, hread]
    by_cases hfile : attrContains (deriveAttr node.attrandnameoff) FILE = true
    · rw [if_pos hfile]
      have hbound := hok hfile
      rw [show readBytes buf ((hdr.filedataoff + hdr.headersize + node.data) % 2 ^ 32) node.datasize
          = some ((((buf.drop ((hdr.filedataoff + hdr.headersize + node.data) % 2 ^ 32)).take
              node.datasize)).map (· % 256)) by
        unfold readBytes
        rw [if_pos hbound]]
      rw [hr]
      rfl
    · rw [if_neg hfile]
      rw [hr]
      rfl

/-- C1, amended: record-level field-read failures are substituted with
default-valued records and decode proceeds; but `RARC::read` completes and
returns an archive only under two further conditions the claim omits — every
FILE-attributed entry's declared payload region must lie within the buffer
(otherwise the payload `read_exact(..).unwrap()` panics), and the decoded
tables must satisfy the Tree Linker's index bounds (otherwise `sortparents`
panics). -/
theorem C1_decode_amended (native : Endian) (buf : List Nat)
    (h1 : payloadOk native buf) (h2 : linkOk native buf) :
    (RARC.read native buf).isSome = true := by
  unfold RARC.read
  cases hp : parsePre native buf with
  | none =>
    exfalso
    unfold payloadOk at h1
    unfold dirNodesOf at h1
    simp only [parsePre] at hp
    split at hp
    next hnone =>
      have hsome := parseDirsGo_isSome (decodeEnv native buf).1 buf (decodeEnv native buf).2.1
        (decodeEnv native buf).2.2.1 (decodeEnv native buf).2.2.1.filenodecount
        (((decodeEnv native buf).2.2.1.filenodeoff + (decodeEnv native buf).2.1.headersize) % 2 ^ 32)
        h1
      rw [hnone] at hsome
      exact Bool.noConfusion hsome
    next => exact Option.noConfusion hp
  | some pre =>
    have hl : phase1Ok pre ∧ phase2Ok pre := by
      unfold linkOk at h2
      rw [hp] at h2
      exact h2
    exact (sortparents_isSome_iff pre).mpr hl

/-- C1, witness for the amended theorem: the empty buffer decodes (to an
archive with empty tables). -/
theorem C1_decode_amended_witness : (RARC.read .little []).isSome = true :=
  C1_decode_amended .little [] (by decide) (by decide)

end Rarc
